import Mathlib

/-!
Verification of the grindery web3 connector (`src/web3.ts`) against its
natural-language specification.

The development shallowly embeds the program:

* the EIP-1559 fee computation of `callSmartContract` (lines 270-293 of the
  source) as `computeFees`;
* the dispatch between simulated call and broadcast (line 294) as
  `dispatchCall` over descriptors produced by `parseFunctionDeclaration`;
* the event/function declaration parsers (lines 50-108), faithfully modelling
  the JavaScript regular expressions (including their backtracking) and the
  `split`/`trim` quirks, as `parseEventDeclaration` and
  `parseFunctionDeclaration` over `List Char`;
* the `NewEventTrigger` log buffer, reorg purge and confirmation pass
  (lines 156-229) as an explicit state machine `stepTrigger` / `runTrigger`;
* the `NewTransactionTrigger` block catch-up loop (lines 111-148) as
  `onTxHeader`.

JavaScript numbers are modelled by exact `Nat`/`Int` arithmetic (all values
relevant to the claims are far below 2^53, where double arithmetic is exact).
External collaborators (ABI encoder/decoder, signature hashing, RPC fetches)
are universally quantified function parameters, as the spec treats them as
opaque collaborators.
-/

namespace Web3Spec

/-! ### Fee computation of `callSmartContract` (source lines 270-293)

The unit-normalisation loop (lines 270-274) converts any of the three fee
fields that was supplied as a string from a decimal-ether string to a wei
string via `web3.utils.toWei(x, "ether")`.  We model a JavaScript field value
after that loop: `num n` is a field that was supplied as a JS number (wei
value `n`, untouched by the loop), `strWei w` is a field that was supplied as
a decimal string and now holds a decimal string whose numeric value is `w`
wei.  Truthiness of a number is nonzeroness; the wei string produced by
`toWei` is never empty, hence always truthy (this is the load-bearing quirk
behind claims C1/C10). -/

inductive JsVal where
  | num (n : Nat)
  | strWei (w : Nat)
deriving DecidableEq

def jsTruthy : JsVal → Bool
  | .num n => n != 0
  | .strWei _ => true

/-- `Number(v)`: the numeric value of the field. -/
def jsNumber : JsVal → Nat
  | .num n => n
  | .strWei w => w

/-- The two optional fee fields consumed by the fee computation. -/
structure CallFields where
  maxPriorityFeePerGas : Option JsVal
  gasLimit : Option JsVal
deriving DecidableEq

inductive FeeOutcome where
  /-- the `Gas limit ... is too low` error; records `maxFee` and `minFee`. -/
  | insufficientFee (maxFee minFee : Int)
  /-- transaction priced: records `txConfig.maxFeePerGas` and
  `txConfig.maxPriorityFeePerGas`. -/
  | priced (maxFeePerGas maxPriorityFeePerGas : Int)
deriving DecidableEq

/-- One gwei is 10^9 wei. -/
def gwei (n : Nat) : Nat := n * 1000000000

/-- Source line 280:
`const maxTip = input.fields.maxPriorityFeePerGas || web3.utils.toWei("75", "gwei");`.
Both uses of `maxTip` in the source (lines 283 and 293) wrap it in `Number(...)`,
so we record directly its numeric value: the supplied field's numeric value when
the field is truthy, and `Number(toWei("75","gwei")) = 75` gwei otherwise
(i.e. when the field is absent, or a falsy number such as `0`). -/
def desiredTip (tipField : Option JsVal) : Nat :=
  match tipField with
  | some v => if jsTruthy v then jsNumber v else gwei 75
  | none => gwei 75

/-- Source lines 281-283:
```js
const maxFee = input.fields.gasLimit
  ? Math.floor(Number(input.fields.gasLimit) / txConfig.gas)
  : baseFee + Number(maxTip);
```
`Nat` division is exactly `Math.floor` of the real quotient of non-negative
numbers.  `gas` is the final gas limit `txConfig.gas`. -/
def feeCap (baseFee gas : Nat) (f : CallFields) : Nat :=
  match f.gasLimit with
  | some v => if jsTruthy v then jsNumber v / gas else baseFee + desiredTip f.maxPriorityFeePerGas
  | none => baseFee + desiredTip f.maxPriorityFeePerGas

/-- Source lines 279 and 284-293:
```js
const minFee = baseFee + Number(web3.utils.toWei("30", "gwei"));
...
if (maxFee < minFee) { throw new Error(`Gas limit ... too low ...`); }
txConfig.maxFeePerGas = maxFee;
txConfig.maxPriorityFeePerGas = Math.min(Number(maxTip), maxFee - baseFee - 1);
```
-/
def computeFees (baseFee gas : Nat) (f : CallFields) : FeeOutcome :=
  let minFee : Nat := baseFee + gwei 30
  let maxFee : Nat := feeCap baseFee gas f
  if maxFee < minFee then .insufficientFee maxFee minFee
  else
    .priced maxFee
      (min ((desiredTip f.maxPriorityFeePerGas : Nat) : Int) ((maxFee : Int) - baseFee - 1))

/-! ### Declaration parsers (source lines 50-108)

Strings are modelled as `List Char`.  The outer shape of both parsers is the
JavaScript regular expression

  for events:    ^\s*(event +)?([a-zA-Z0-9_]+)\s*\(([^)]+)\)\s*;?\s*$
  for functions: ^\s*(function +)?([a-zA-Z0-9_]+)\s*\(([^)]+)\)\s*(.*)$

`matchKwName` and `matchOuter` implement these (deterministically; the
backtracking of the optional keyword group is resolved below exactly as a
backtracking engine would, see the parser soundness and
completeness lemmas below for the proof that this equals the declarative reading).  The character class `\s` is
modelled by the six ASCII whitespace characters; `.` (which excludes line
terminators) is modelled as excluding CR and LF. -/

/-- JavaScript `\s` (restricted to ASCII): space, tab, LF, VT, FF, CR. -/
def wsChar (c : Char) : Bool :=
  c = ' ' || c = '\t' || c = '\n' || c = '\x0b' || c = '\x0c' || c = '\r'

/-- The regex class `[a-zA-Z0-9_]`. -/
def nameChar (c : Char) : Bool :=
  (97 ≤ c.toNat && c.toNat ≤ 122) || (65 ≤ c.toNat && c.toNat ≤ 90) ||
    (48 ≤ c.toNat && c.toNat ≤ 57) || c = '_'

/-- Leading-whitespace skip, the regex `\s*` in front position. -/
def dropWs (s : List Char) : List Char := s.dropWhile wsChar

/-- The regex fragment `(KW +)?([a-zA-Z0-9_]+)` (with `KW` the keyword
`event` or `function`), resolved deterministically: a backtracking engine
first tries to take the optional group, which succeeds exactly when the text
starts with the keyword, then one or more literal spaces, then a name
character; if the group is taken the name is the following maximal name-character
run, and whenever taking the group cannot lead to an overall match neither can
the regex alternative that skips it unless the skipped-group alternative reads
the maximal name run at the very front, which is what `fallback` does.
Returns the captured name and the rest of the input. -/
def matchKwName (kw s : List Char) : Option (List Char × List Char) :=
  let fallback : Option (List Char × List Char) :=
    if s.takeWhile nameChar = [] then none
    else some (s.takeWhile nameChar, s.dropWhile nameChar)
  if kw.isPrefixOf s then
    let r := s.drop kw.length
    let sp := r.takeWhile (fun c => c = ' ')
    let r2 := r.dropWhile (fun c => c = ' ')
    if !sp.isEmpty && (match r2 with | c :: _ => nameChar c | [] => false) then
      some (r2.takeWhile nameChar, r2.dropWhile nameChar)
    else fallback
  else fallback

/-- The shared outer shape `^\s* (KW +)? NAME \s* \( PARAMS \)` of both
declaration regexes: returns the captured name, the captured parameter blob
(the non-empty run of non-`)` characters after the first `(`), and the
remaining input after the first `)`. -/
def matchOuter (kw s : List Char) : Option (List Char × List Char × List Char) :=
  match matchKwName kw (dropWs s) with
  | none => none
  | some (nm, rest) =>
    match dropWs rest with
    | '(' :: r1 =>
      let ps := r1.takeWhile (fun c => c ≠ ')')
      if ps = [] then none
      else
        match r1.dropWhile (fun c => c ≠ ')') with
        | ')' :: tl => some (nm, ps, tl)
        | _ => none
    | _ => none

/-- The event regex's trailing `\s*;?\s*$`: the text after `)` matches
exactly when its non-whitespace characters are nothing or a single `;`. -/
def eventTailOk (tl : List Char) : Bool :=
  match tl.filter (fun c => !wsChar c) with
  | [] => true
  | [c] => c = ';'
  | _ => false

/-- The function regex's trailing `\s*(.*)$`: `\s*` greedily eats leading
whitespace; `.` does not match a line terminator, so the regex matches
exactly when no CR/LF remains afterwards, capturing the remainder. -/
def funcSuffix (tl : List Char) : Option (List Char) :=
  let t := dropWs tl
  if t.any (fun c => c = '\n' || c = '\r') then none else some t

/-- JavaScript `"s".split(",")`: split at every comma, keeping empty pieces. -/
def splitComma : List Char → List (List Char)
  | [] => [[]]
  | c :: r =>
    if c = ',' then [] :: splitComma r
    else
      match splitComma r with
      | p :: ps => (c :: p) :: ps
      | [] => [[c]]

/-- JavaScript `String.prototype.trim`: strip whitespace from both ends. -/
def trimChars (s : List Char) : List Char :=
  ((s.dropWhile wsChar).reverse.dropWhile wsChar).reverse

/-- The maximal non-whitespace runs of a string, in order — the
"whitespace-separated tokens" of the spec.  (Structurally recursive; the
lemma `tokenize_cons_of_not_ws` below recovers the usual
"maximal run + rest" unfolding.) -/
def tokenize : List Char → List (List Char)
  | [] => []
  | c :: r =>
    if wsChar c then tokenize r
    else
      match tokenize r, r.headD ' ' with
      | [], _ => [[c]]
      | t :: ts, d => if wsChar d then [c] :: t :: ts else (c :: t) :: ts

/-- JavaScript `p.trim().split(/\s+/)` as the source performs on every
parameter and on the function modifier region: on a string with at least one
non-whitespace character this is its whitespace-separated tokens; on an
all-whitespace string it is `[""]` (a single empty token) — the JS quirk
`"".split(/\s+/) === [""]`. -/
def jsTrimSplitWs (p : List Char) : List (List Char) :=
  let t := trimChars p
  if t = [] then [[]] else tokenize t

/-- One parsed event parameter (an element of `AbiItem.inputs`). -/
structure EvInput where
  indexed : Bool
  type : List Char
  name : List Char
deriving DecidableEq

/-- Source lines 56-69: one parameter `p` of the comma-separated list.
`parts = p.trim().split(/\s+/)`; 2 or 3 parts, a middle part must be
`indexed`; the result records `{indexed: parts.length === 3, type: parts[0],
name: parts[parts.length - 1]}`.  `none` models the thrown
`Invalid event declaration: Invalid parameter` error. -/
def parseEventParam (p : List Char) : Option EvInput :=
  match jsTrimSplitWs p with
  | [a, b] => some ⟨false, a, b⟩
  | [a, b, c] => if b = "indexed".data then some ⟨true, a, c⟩ else none
  | _ => none

/-- The descriptor returned by `parseEventDeclaration`
(`type: "event"`, `anonymous: false` are constants and omitted). -/
structure EventAbi where
  name : List Char
  inputs : List EvInput
deriving DecidableEq

/-- Source lines 50-76, `parseEventDeclaration`.  `none` models the thrown
`Invalid event declaration` errors. -/
def parseEventDeclaration (s : List Char) : Option EventAbi :=
  match matchOuter ("event".data) s with
  | none => none
  | some (nm, ps, tl) =>
    if eventTailOk tl then
      match (splitComma ps).mapM parseEventParam with
      | some inputs => some ⟨nm, inputs⟩
      | none => none
    else none

/-- One parsed function parameter. -/
structure FuncInput where
  type : List Char
  name : List Char
deriving DecidableEq

/-- Source lines 83-92: a function parameter needs at least 2 tokens;
`type = parts[0]`, `name = parts[parts.length - 1]`. -/
def parseFunctionParam (p : List Char) : Option FuncInput :=
  let parts := jsTrimSplitWs p
  if parts.length < 2 then none
  else some ⟨parts.headD [], parts.getLastD []⟩

/-- The descriptor returned by `parseFunctionDeclaration`
(`type: "function"` is constant and omitted). -/
structure FuncAbi where
  name : List Char
  inputs : List FuncInput
  constant : Bool
  payable : Bool
  stateMutability : List Char
deriving DecidableEq

/-- Source lines 77-108, `parseFunctionDeclaration`:
```js
const suffixes = m[4].trim().split(/\s+/);
return { name, inputs,
  constant: suffixes.includes("view"),
  payable: suffixes.includes("payable"),
  stateMutability: suffixes.includes("pure") ? "pure"
    : suffixes.includes("view") ? "view"
    : suffixes.includes("payable") ? "payable" : "nonpayable",
  type: "function" };
```
-/
def parseFunctionDeclaration (s : List Char) : Option FuncAbi :=
  match matchOuter ("function".data) s with
  | none => none
  | some (nm, ps, tl) =>
    match funcSuffix tl with
    | none => none
    | some m4 =>
      match (splitComma ps).mapM parseFunctionParam with
      | none => none
      | some inputs =>
        let sfx := jsTrimSplitWs m4
        some ⟨nm, inputs, sfx.contains ("view".data), sfx.contains ("payable".data),
          if sfx.contains ("pure".data) then "pure".data
          else if sfx.contains ("view".data) then "view".data
          else if sfx.contains ("payable".data) then "payable".data
          else "nonpayable".data⟩

/-! ### Call dispatch of `callSmartContract` (source lines 294-302) -/

/-- The two shapes of `callSmartContract`'s payload: the simulated-call
object `{returnValue, estimatedGas, minFee}` or the broadcast result of
`web3.eth.sendTransaction`.  `R` is the type of `web3.eth.call` results and
`B` the type of broadcast results, both opaque. -/
inductive CallOutcome (R B : Type) where
  | simulated (returnValue : R) (estimatedGas : Nat) (minFee : Nat)
  | broadcast (receipt : B)

/-- Source line 294:
`if (functionInfo.constant || functionInfo.stateMutability === "pure" || input.fields.dryRun)`. -/
def isSimulatedCall (fi : FuncAbi) (dryRun : Bool) : Bool :=
  fi.constant || fi.stateMutability = "pure".data || dryRun

/-- Source lines 294-302: dispatch between the simulated call (read path) and
the broadcast (write path).  `callResult` stands for `await web3.eth.call(...)`,
`gasEstimate` for the earlier `estimateGas` result, `minFee` for the computed
minimum fee, `sendResult` for `await web3.eth.sendTransaction(...)`. -/
def dispatchCall {R B : Type} (fi : FuncAbi) (dryRun : Bool)
    (callResult : R) (gasEstimate minFee : Nat) (sendResult : B) : CallOutcome R B :=
  if isSimulatedCall fi dryRun then .simulated callResult gasEstimate minFee
  else .broadcast sendResult

/-! ### The `NewEventTrigger` state machine (source lines 150-229)

`V` is the opaque type of decoded JavaScript values.  The external
collaborators of the trigger are collected in `EvCtx`:
`inputs` is `parseEventDeclaration(eventDeclaration).inputs`,
`bag` is the caller's `parameterFilters` dictionary (a partial map, so
`name in parameterFilters` is `(bag name).isSome`),
`enc` is `web3.eth.abi.encodeParameter` (returning the encoded string) and
`decode` is field access on `web3.eth.abi.decodeLog(inputs, entry.data,
entry.topics.slice(1))`, i.e. `decode entry name = decoded[name]`. -/

/-- A buffered raw log entry; only the fields the trigger inspects are kept,
plus an opaque payload `ldata` so distinct logs can be told apart. -/
structure LogEntry where
  blockHash : Nat
  blockNumber : Int
  ldata : Nat
deriving DecidableEq

structure EvCtx (V : Type) where
  inputs : List EvInput
  bag : List Char → Option V
  enc : List Char → V → List Char
  decode : LogEntry → List Char → V

/-- A notification sent by `this.sendNotification({_rawEvent: logEntry, ...event})`,
tagged with the head block number of the pass that emitted it. -/
structure Emission (V : Type) where
  head : Int
  raw : LogEntry
  fields : List (List Char × V)
deriving DecidableEq

/-- The caller supplied a filter for this input
(`input.name in this.fields.parameterFilters`). -/
def fieldFiltered {V : Type} (ctx : EvCtx V) (i : EvInput) : Bool :=
  (ctx.bag i.name).isSome

/-- This input is filtered and its decoded value's canonical encoding differs
from the canonical encoding of the caller's filter value (the condition of
the `return` on source lines 207-212). -/
def fieldMismatch {V : Type} (ctx : EvCtx V) (dec : List Char → V) (i : EvInput) : Bool :=
  match ctx.bag i.name with
  | some fv => ctx.enc i.type (dec i.name) ≠ ctx.enc i.type fv
  | none => false

/-- Source lines 201-214, the filter loop over `inputs` for one confirmed
entry.  Walks the descriptor inputs in declaration order; an input without a
filter is skipped; a filtered input is compared by canonical encoding and on
mismatch the loop stops (the source does `return`).  Returns the collected
`event` object when every filtered input matched (`none` on mismatch), and
the trace of filtered input names that were actually compared (hence whose
decode/encode was evaluated), in order. -/
def filterLoop {V : Type} (ctx : EvCtx V) (dec : List Char → V) :
    List EvInput → Option (List (List Char × V)) × List (List Char)
  | [] => (some [], [])
  | i :: rest =>
    match ctx.bag i.name with
    | none => filterLoop ctx dec rest
    | some fv =>
      if ctx.enc i.type (dec i.name) ≠ ctx.enc i.type fv then (none, [i.name])
      else
        match filterLoop ctx dec rest with
        | (r, tr) => (r.map (fun e => (i.name, dec i.name) :: e), i.name :: tr)

/-- Source lines 200-218: processing of one confirmed entry — decode the log,
run the filter loop, and send the notification when every filtered field
matched.  `none` means the `return` on line 211 fired. -/
def processEntry {V : Type} (ctx : EvCtx V) (head : Int) (l : LogEntry) :
    Option (Emission V) :=
  match filterLoop ctx (ctx.decode l) ctx.inputs with
  | (some evt, _) => some ⟨head, l, evt⟩
  | (none, _) => none

/-- Source lines 195-219, the `for (const logEntry of logs)` loop of one
confirmation pass.  Returns the re-append buffer `newPendingLogs`, the
notifications sent, and whether the loop was aborted by the `return` on
line 211 (in which case the source skips line 220, so `newPendingLogs` is
discarded — the returned buffer is `[]`). -/
def passLoop {V : Type} (ctx : EvCtx V) (head : Int) :
    List LogEntry → List LogEntry × List (Emission V) × Bool
  | [] => ([], [], false)
  | l :: rest =>
    if l.blockNumber > head - 2 then
      match passLoop ctx head rest with
      | (np, ems, false) => (l :: np, ems, false)
      | (_, ems, true) => ([], ems, true)
    else
      match processEntry ctx head l with
      | none => ([], [], true)
      | some em =>
        match passLoop ctx head rest with
        | (np, ems, ab) => (np, em :: ems, ab)

/-- Source lines 188-221, one `newBlockHeaders` delivery: ignore a falsy head
number; otherwise swap the buffer for an empty one, run the pass loop, and
(unless the pass was aborted by the line-211 `return`) concatenate the
re-append buffer back.  Returns the new buffer and the notifications. -/
def onHeader {V : Type} (ctx : EvCtx V) (head : Int) (pending : List LogEntry) :
    List LogEntry × List (Emission V) :=
  if head = 0 then (pending, [])
  else
    match passLoop ctx head pending with
    | (np, ems, ab) => (if ab then [] else np, ems)

/-- The inputs the event trigger reacts to: a `logs` subscription delivery
(source lines 175-182, with the `removed` reorg flag) or a
`newBlockHeaders` delivery (source lines 186-221). -/
inductive InEvent where
  | log (removed : Bool) (l : LogEntry)
  | header (n : Int)

/-- One reaction of the event trigger.  A removed log purges every buffered
entry with the same block hash (line 178); a live log is appended
(line 181); a header runs a confirmation pass. -/
def stepTrigger {V : Type} (ctx : EvCtx V) (pending : List LogEntry) :
    InEvent → List LogEntry × List (Emission V)
  | .log true l => (pending.filter (fun x => x.blockHash ≠ l.blockHash), [])
  | .log false l => (pending ++ [l], [])
  | .header n => onHeader ctx n pending

/-- A whole run of the event trigger over a sequence of deliveries,
collecting all notifications in order. -/
def runTrigger {V : Type} (ctx : EvCtx V) (pending : List LogEntry) :
    List InEvent → List LogEntry × List (Emission V)
  | [] => (pending, [])
  | e :: evs =>
    match stepTrigger ctx pending e with
    | (st1, ems1) =>
      match runTrigger ctx st1 evs with
      | (st2, ems2) => (st2, ems1 ++ ems2)

/-- Source lines 159-168, the topic list built before subscribing:
```js
const topics = [web3.eth.abi.encodeEventSignature(eventInfo)];
for (const input of inputs) {
  if (input.indexed) {
    topics.push(input.name in parameterFilters
      ? web3.eth.abi.encodeParameter(input.type, parameterFilters[input.name])
      : null);
  }
}
```
`sig` stands for the event-signature hash `encodeEventSignature(eventInfo)`;
`none` is the `null` wildcard. -/
def topicsForInputs {V : Type} (bag : List Char → Option V)
    (enc : List Char → V → List Char) : List EvInput → List (Option (List Char))
  | [] => []
  | i :: rest =>
    if i.indexed then
      (match bag i.name with
        | some v => some (enc i.type v)
        | none => none) :: topicsForInputs bag enc rest
    else topicsForInputs bag enc rest

def buildTopics {V : Type} (sig : List Char) (inputs : List EvInput)
    (bag : List Char → Option V) (enc : List Char → V → List Char) :
    List (Option (List Char)) :=
  some sig :: topicsForInputs bag enc inputs

/-! ### The `NewTransactionTrigger` catch-up loop (source lines 110-148) -/

/-- A transaction record; only `from` and `to` are inspected.  A JS `null` /
`undefined` / empty-string field is modelled as `""` (all are falsy and none
is `0x`-prefixed, which is all `isSameAddress` looks at). -/
structure TxRec where
  sender : List Char
  recipient : List Char
  payload : Nat
deriving DecidableEq

/-- The optional `from` / `to` filter fields of the trigger; `[]` models an
absent or empty (falsy) filter, which is not applied. -/
structure TxFilters where
  fromF : List Char
  toF : List Char
deriving DecidableEq

def toLowerStr (s : List Char) : List Char := s.map Char.toLower

def startsWith0x (s : List Char) : Bool := ("0x".data).isPrefixOf s

/-- Source lines 41-49:
```js
function isSameAddress(a, b) {
  if (!a || !b) return false;
  if (/^0x/.test(a) && /^0x/.test(b)) return a.toLowerCase() === b.toLowerCase();
  return a === b;
}
```
-/
def isSameAddress (a b : List Char) : Bool :=
  if a.isEmpty || b.isEmpty then false
  else if startsWith0x a && startsWith0x b then toLowerStr a = toLowerStr b
  else a = b

/-- Source lines 132-137: a transaction is forwarded unless a truthy `from`
filter rejects its sender or a truthy `to` filter rejects its recipient. -/
def passesTxFilters (flt : TxFilters) (tx : TxRec) : Bool :=
  (flt.fromF.isEmpty || isSameAddress tx.sender flt.fromF) &&
    (flt.toF.isEmpty || isSameAddress tx.recipient flt.toF)

/-- The body of the `while (lastBlock < block.number - 2)` loop (source lines
124-140), recursing on the number of remaining iterations.  Each iteration
increments `lastBlock` and fetches that block; `fetch b` models
`await web3.eth.getBlock(b, true)`: `none` means the fetched block's
`transactions` field is missing (the line 127-130 log-and-return path, which
abandons the whole cycle), `some txs` its transaction list.  Returns the
final `lastBlock` and the transactions forwarded by `sendNotification`, in
order. -/
def catchUpAux (fetch : Int → Option (List TxRec)) (flt : TxFilters) :
    Nat → Int → Int × List TxRec
  | 0, lastBlock => (lastBlock, [])
  | fuel + 1, lastBlock =>
    match fetch (lastBlock + 1) with
    | none => (lastBlock + 1, [])
    | some txs =>
      match catchUpAux fetch flt fuel (lastBlock + 1) with
      | (lf, out) => (lf, txs.filter (passesTxFilters flt) ++ out)

/-- Source lines 124-140, the whole `while (lastBlock < block.number - 2)`
loop.  The condition `lastBlock < head - 2` holds for exactly
`(head - 2 - lastBlock).toNat` iterations, since each iteration increments
`lastBlock` by one and the loop stops as soon as `lastBlock = head - 2`. -/
def catchUp (fetch : Int → Option (List TxRec)) (flt : TxFilters)
    (lastBlock head : Int) : Int × List TxRec :=
  catchUpAux fetch flt (head - 2 - lastBlock).toNat lastBlock

/-- Source lines 116-141, one `newBlockHeaders` delivery of the transaction
trigger: a falsy (zero) head number is ignored; while unanchored
(`lastBlock <= 0`, initial value `-1`) the first real header only anchors
`lastBlock`; afterwards the catch-up loop runs.  Returns the new `lastBlock`
and the forwarded transactions. -/
def onTxHeader (fetch : Int → Option (List TxRec)) (flt : TxFilters)
    (lastBlock head : Int) : Int × List TxRec :=
  if head = 0 then (lastBlock, [])
  else if lastBlock ≤ 0 then (head, [])
  else catchUp fetch flt lastBlock head

/-- The ascending list of block numbers `lastBlock+1, ..., head-2` that a
complete catch-up starting from `lastBlock` fetches. -/
def blockRange (lastBlock head : Int) : List Int :=
  (List.range (head - 2 - lastBlock).toNat).map (fun i : Nat => lastBlock + 1 + (i : Int))

/-- The claim's address-comparison rule for applied filters: two 0x-prefixed
strings compare case-insensitively, every other pair compares by exact
equality. -/
def addrEqSpec (a b : List Char) : Bool :=
  if startsWith0x a && startsWith0x b then toLowerStr a = toLowerStr b else a = b

/-! ### Declarative reading of the event-declaration grammar (claim C7)

The claim describes the accepted shape declaratively: optional `event`
keyword, a name of characters `[A-Za-z0-9_]+`, a parenthesized
comma-separated parameter list, an optional trailing semicolon; every
parameter must be exactly 2 or 3 whitespace-separated tokens, a 3-token
parameter's middle token being `indexed`.  The following predicates state
that shape as a nondeterministic decomposition of the input string, written
from the claim's words, to be compared with the deterministic
regex-derived `parseEventDeclaration`. -/

/-- All characters are whitespace. -/
def WsAll (l : List Char) : Prop := ∀ c ∈ l, wsChar c = true

/-- The optional-keyword region: empty, or the keyword followed by at least
one space (the regex group `(event +)?`). -/
def KwSpacesOk (kw l : List Char) : Prop :=
  l = [] ∨ ∃ n : Nat, 0 < n ∧ l = kw ++ List.replicate n ' '

/-- A non-empty run of name characters. -/
def NameOk (l : List Char) : Prop := l ≠ [] ∧ ∀ c ∈ l, nameChar c = true

/-- The parameter blob: non-empty and free of `)` (the regex `([^)]+)`). -/
def ParamsOk (l : List Char) : Prop := l ≠ [] ∧ ')' ∉ l

/-- What may follow the closing parenthesis: whitespace with at most one `;`
(the regex `\s*;?\s*$`). -/
def TailSemiOk (l : List Char) : Prop :=
  l.filter (fun c => !wsChar c) = [] ∨ l.filter (fun c => !wsChar c) = [';']

instance (l : List Char) : Decidable (WsAll l) := by
  unfold WsAll
  infer_instance

instance (l : List Char) : Decidable (NameOk l) := by
  unfold NameOk
  infer_instance

instance (l : List Char) : Decidable (ParamsOk l) := by
  unfold ParamsOk
  infer_instance

instance (l : List Char) : Decidable (TailSemiOk l) := by
  unfold TailSemiOk
  infer_instance

/-- The claim's condition on one comma-separated parameter: exactly 2 or 3
whitespace-separated tokens, and a 3-token parameter's middle token is
`indexed`. -/
def GoodEventParam (p : List Char) : Prop :=
  (tokenize p).length = 2
  ∨ ((tokenize p).length = 3 ∧ (tokenize p).get? 1 = some ("indexed".data))

instance (p : List Char) : Decidable (GoodEventParam p) := by
  unfold GoodEventParam
  infer_instance

/-- The descriptor entry the claim assigns to one parameter: `type` is the
first token, `name` the last token, `indexed` iff there are 3 tokens. -/
def claimEventInput (p : List Char) : EvInput :=
  ⟨(tokenize p).length = 3, (tokenize p).headD [], (tokenize p).getLastD []⟩

/-- The full declarative acceptance condition of the claim: the outer shape
matches and every parameter is well-formed. -/
def EventDeclOk (s : List Char) : Prop :=
  ∃ w1 kw nm w2 ps tl,
    s = w1 ++ kw ++ nm ++ w2 ++ '(' :: (ps ++ ')' :: tl)
    ∧ WsAll w1 ∧ KwSpacesOk ("event".data) kw ∧ NameOk nm ∧ WsAll w2
    ∧ ParamsOk ps ∧ TailSemiOk tl
    ∧ ∀ p ∈ splitComma ps, GoodEventParam p

-- THEOREMS-BELOW

theorem computeFees_insufficient_iff (baseFee gas : Nat) (f : CallFields) :
    (∃ a b, computeFees baseFee gas f = .insufficientFee a b) ↔
      feeCap baseFee gas f < baseFee + gwei 30 := by
  unfold computeFees
  by_cases h : feeCap baseFee gas f < baseFee + gwei 30 <;> simp [h]

theorem computeFees_priced (baseFee gas : Nat) (f : CallFields)
    (h : baseFee + gwei 30 ≤ feeCap baseFee gas f) :
    computeFees baseFee gas f =
      .priced (feeCap baseFee gas f)
        (min ((desiredTip f.maxPriorityFeePerGas : Nat) : Int)
          ((feeCap baseFee gas f : Int) - baseFee - 1)) := by
  unfold computeFees
  rw [if_neg (by omega)]

/-- C1 (amended).  For every invocation of `callSmartContract` that reaches fee
computation: the minimum acceptable fee per gas unit is `baseFee + 30` gwei;
the desired tip is the caller-supplied `maxPriorityFeePerGas` whenever that
field is truthy (converted from a decimal-ether string to wei when supplied as
a string) and 75 gwei (`75 * 10^9` wei) when the field is absent or a falsy
number; the fee cap is `floor(gasLimit budget / final gas limit)` when a
truthy `gasLimit` budget was supplied and `baseFee + desired tip` otherwise;
an `InsufficientFeeError` is raised iff the cap is strictly below the minimum;
otherwise `maxPriorityFeePerGas := min(desired tip, maxFee - baseFee - 1)`.
In particular, with `baseFee = 100` wei, no supplied tip and no budget,
`maxFeePerGas = 75000000100` wei and `maxPriorityFeePerGas = 74999999999` wei
(not 175 gwei and 74 gwei as the claim's concrete instance states). -/
theorem c1_fee_computation (baseFee gas : Nat) (f : CallFields) :
    ((∃ a b, computeFees baseFee gas f = .insufficientFee a b) ↔
      feeCap baseFee gas f < baseFee + gwei 30)
    ∧ (baseFee + gwei 30 ≤ feeCap baseFee gas f →
        computeFees baseFee gas f =
          .priced (feeCap baseFee gas f)
            (min ((desiredTip f.maxPriorityFeePerGas : Nat) : Int)
              ((feeCap baseFee gas f : Int) - baseFee - 1)))
    ∧ (∀ v, jsTruthy v = true → desiredTip (some v) = jsNumber v)
    ∧ desiredTip none = gwei 75
    ∧ (∀ v, jsTruthy v = false → desiredTip (some v) = gwei 75)
    ∧ (∀ v, jsTruthy v = true →
        feeCap baseFee gas ⟨f.maxPriorityFeePerGas, some v⟩ = jsNumber v / gas)
    ∧ feeCap baseFee gas ⟨f.maxPriorityFeePerGas, none⟩ =
        baseFee + desiredTip f.maxPriorityFeePerGas
    ∧ computeFees 100 21000 ⟨none, none⟩ = .priced 75000000100 74999999999 := by
  refine ⟨computeFees_insufficient_iff baseFee gas f,
    computeFees_priced baseFee gas f, ?_, rfl, ?_, ?_, rfl, rfl⟩
  · intro v hv; simp [desiredTip, hv]
  · intro v hv; simp [desiredTip, hv]
  · intro v hv; simp [feeCap, hv]

/-- Witness for `c1_fee_computation` at `baseFee = 100`, `gas = 21000`,
no tip and no budget supplied. -/
theorem c1_fee_computation_witness :
    computeFees 100 21000 ⟨none, none⟩ = .priced 75000000100 74999999999 :=
  ((c1_fee_computation 100 21000 ⟨none, none⟩).2.1 (by decide)).trans (by decide)

/-- Counterexample to C1 as stated.  With `baseFee = 100` wei-units, no
supplied tip and no budget, the computed `maxFeePerGas` is `75000000100` wei,
not 175 gwei, and the computed `maxPriorityFeePerGas` is `74999999999` wei,
not 74 gwei.  Moreover the desired tip is governed by truthiness, not
presence: a supplied numeric tip of `0` yields the 75-gwei default, and a
supplied numeric budget of `0` is ignored rather than used as the fee cap. -/
theorem c1_counterexample :
    computeFees 100 21000 ⟨none, none⟩ = .priced 75000000100 74999999999
    ∧ (75000000100 : Int) ≠ 175 * 1000000000
    ∧ (74999999999 : Int) ≠ 74 * 1000000000
    ∧ computeFees 100 21000 ⟨some (.num 0), none⟩ = .priced 75000000100 74999999999
    ∧ computeFees 100 21000 ⟨none, some (.num 0)⟩ = .priced 75000000100 74999999999 :=
  ⟨by decide, by decide, by decide, by decide, by decide⟩

/-- C10 (amended).  A caller-supplied `maxPriorityFeePerGas` of numeric `0` is
treated exactly as if the field were absent (the desired tip becomes the
75-gwei default), because the field is tested for truthiness.  The string
`"0"`, however, unit-normalises to the string `"0"`, which is a non-empty —
hence truthy — string: the desired tip then becomes `0`, and with no budget
supplied the call always fails with an `InsufficientFeeError` instead of
falling back to the default. -/
theorem c10_zero_tip (baseFee gas : Nat) (g : Option JsVal) :
    computeFees baseFee gas ⟨some (.num 0), g⟩ = computeFees baseFee gas ⟨none, g⟩
    ∧ desiredTip (some (.num 0)) = gwei 75
    ∧ desiredTip (some (.strWei 0)) = 0
    ∧ computeFees baseFee gas ⟨some (.strWei 0), none⟩ =
        .insufficientFee baseFee (baseFee + gwei 30) := by
  refine ⟨rfl, rfl, rfl, ?_⟩
  have hcap : feeCap baseFee gas ⟨some (.strWei 0), none⟩ = baseFee := rfl
  unfold computeFees
  rw [hcap, if_pos (by simp [gwei])]
  simp

/-- Counterexample to C10 as stated: supplying the string `"0"` is not treated
as an absent field — it produces an `InsufficientFeeError` where the
absent-field call succeeds. -/
theorem c10_counterexample :
    computeFees 100 21000 ⟨some (.strWei 0), none⟩ = .insufficientFee 100 30000000100
    ∧ computeFees 100 21000 ⟨none, none⟩ = .priced 75000000100 74999999999
    ∧ FeeOutcome.insufficientFee 100 30000000100 ≠
        FeeOutcome.priced 75000000100 74999999999 :=
  ⟨by decide, by decide, by decide⟩

theorem parseFunctionDeclaration_mutability (s : List Char) (fi : FuncAbi)
    (h : parseFunctionDeclaration s = some fi) :
    ∃ sfx : List (List Char),
      fi.constant = sfx.contains ("view".data) ∧
      fi.payable = sfx.contains ("payable".data) ∧
      fi.stateMutability =
        (if sfx.contains ("pure".data) then "pure".data
        else if sfx.contains ("view".data) then "view".data
        else if sfx.contains ("payable".data) then "payable".data
        else "nonpayable".data) := by
  unfold parseFunctionDeclaration at h
  cases hmo : matchOuter ("function".data) s with
  | none => rw [hmo] at h; exact absurd h (by simp)
  | some v =>
    obtain ⟨nm, ps, tl⟩ := v
    rw [hmo] at h
    dsimp only at h
    cases hfs : funcSuffix tl with
    | none => rw [hfs] at h; exact absurd h (by simp)
    | some m4 =>
      rw [hfs] at h
      cases hmp : (splitComma ps).mapM parseFunctionParam with
      | none => rw [hmp] at h; exact absurd h (by simp)
      | some inputs =>
        rw [hmp] at h
        obtain rfl := Option.some.inj h
        exact ⟨jsTrimSplitWs m4, rfl, rfl, rfl⟩

/-- C9.  `callSmartContract` performs a simulated call and returns a payload
of shape `{returnValue, estimatedGas, minFee}` if and only if the parsed
function's mutability is read-only (the `view` modifier is present — which is
exactly what makes `constant` true — or the mutability is `pure`) or the
`dryRun` flag is set; in every other case it broadcasts the signed
transaction and returns the broadcast result. -/
theorem c9_dispatch {R B : Type} (s : List Char) (fi : FuncAbi) (dryRun : Bool)
    (callResult : R) (gasEstimate minFee : Nat) (sendResult : B)
    (h : parseFunctionDeclaration s = some fi) :
    (dispatchCall fi dryRun callResult gasEstimate minFee sendResult =
        .simulated callResult gasEstimate minFee ↔
      (fi.stateMutability = "pure".data ∨ fi.stateMutability = "view".data ∨ dryRun = true))
    ∧ ((fi.stateMutability ≠ "pure".data ∧ fi.stateMutability ≠ "view".data ∧ dryRun = false) →
        dispatchCall fi dryRun callResult gasEstimate minFee sendResult =
          .broadcast sendResult) := by
  obtain ⟨sfx, hc, hp, hm⟩ := parseFunctionDeclaration_mutability s fi h
  have d1 : ("view".data : List Char) ≠ "pure".data := by decide
  have d2 : ("nonpayable".data : List Char) ≠ "pure".data := by decide
  have d3 : ("payable".data : List Char) ≠ "pure".data := by decide
  have d4 : ("nonpayable".data : List Char) ≠ "view".data := by decide
  have d5 : ("payable".data : List Char) ≠ "view".data := by decide
  have d6 : ("pure".data : List Char) ≠ "view".data := by decide
  unfold dispatchCall isSimulatedCall
  by_cases hv : sfx.contains ("view".data) <;>
    by_cases hpu : sfx.contains ("pure".data) <;>
      by_cases hpa : sfx.contains ("payable".data) <;>
        cases dryRun <;>
          simp_all [hc, hm]

/-- Witness for `c9_dispatch`: the declaration
`function balanceOf(address owner) view returns (uint256)` parses with
`constant = true` and mutability `view`, and even with `dryRun = false` the
call is dispatched as a simulated call. -/
theorem c9_dispatch_witness :
    dispatchCall (R := Nat) (B := Nat)
      ⟨"balanceOf".data, [⟨"address".data, "owner".data⟩], true, false, "view".data⟩
      false 7 5 3 9 = .simulated 7 5 3 :=
  (c9_dispatch ("function balanceOf(address owner) view returns (uint256)".data)
      ⟨"balanceOf".data, [⟨"address".data, "owner".data⟩], true, false, "view".data⟩
      false 7 5 3 9 (by decide)).1.mpr (Or.inr (Or.inl (by decide)))

theorem topicsForInputs_eq {V : Type} (bag : List Char → Option V)
    (enc : List Char → V → List Char) (inputs : List EvInput) :
    topicsForInputs bag enc inputs =
      (inputs.filter (fun i => i.indexed)).map (fun i => (bag i.name).map (enc i.type)) := by
  induction inputs with
  | nil => rfl
  | cons i rest ih =>
    cases hi : i.indexed <;> simp [topicsForInputs, hi, ih] <;>
      cases bag i.name <;> simp

/-- C6.  For every successfully parsed event declaration with `k` indexed
parameters, the topic list built by the event trigger has length `1 + k`:
topic 0 is the event-signature hash of the descriptor, and each indexed input
in declaration order contributes exactly one topic — the canonical encoding
of the caller's filter value when the input's name is a key of the filter
bag, and `null` (`none`, the wildcard) otherwise; non-indexed inputs
contribute no topic. -/
theorem c6_topics {V : Type} (s : List Char) (abi : EventAbi)
    (bag : List Char → Option V) (enc : List Char → V → List Char) (sig : List Char)
    (_h : parseEventDeclaration s = some abi) :
    buildTopics sig abi.inputs bag enc =
      some sig ::
        (abi.inputs.filter (fun i => i.indexed)).map (fun i => (bag i.name).map (enc i.type))
    ∧ (buildTopics sig abi.inputs bag enc).length
        = 1 + (abi.inputs.filter (fun i => i.indexed)).length := by
  constructor
  · unfold buildTopics
    rw [topicsForInputs_eq]
  · unfold buildTopics
    rw [topicsForInputs_eq]
    simp [Nat.add_comm]

/-- Witness for `c6_topics`: the spec's end-to-end example.
`Transfer(address indexed from, address indexed to, uint256 value)` has two
indexed parameters; with a filter supplied only for `to`, the topic list has
length 3 and is `[signature, wildcard, encoded filter]`. -/
theorem c6_topics_witness :
    buildTopics (V := Nat) ("SIG".data)
      [⟨true, "address".data, "from".data⟩, ⟨true, "address".data, "to".data⟩,
        ⟨false, "uint256".data, "value".data⟩]
      (fun n => if n = "to".data then some 7 else none)
      (fun _ _ => "ENC".data) =
      [some ("SIG".data), none, some ("ENC".data)] := by
  have h := c6_topics (V := Nat)
    ("event Transfer(address indexed from, address indexed to, uint256 value)".data)
    ⟨"Transfer".data,
      [⟨true, "address".data, "from".data⟩, ⟨true, "address".data, "to".data⟩,
        ⟨false, "uint256".data, "value".data⟩]⟩
    (fun n => if n = "to".data then some 7 else none)
    (fun _ _ => "ENC".data) ("SIG".data) (by decide)
  exact h.1.trans (by decide)

theorem processEntry_some {V : Type} (ctx : EvCtx V) (head : Int) (l : LogEntry)
    (em : Emission V) (h : processEntry ctx head l = some em) :
    em.head = head ∧ em.raw = l := by
  unfold processEntry at h
  rcases hf : filterLoop ctx (ctx.decode l) ctx.inputs with ⟨r, tr⟩
  rw [hf] at h
  cases r with
  | none => exact absurd h (by simp)
  | some evt =>
    obtain rfl := Option.some.inj h
    exact ⟨rfl, rfl⟩

theorem passLoop_spec {V : Type} (ctx : EvCtx V) (head : Int) (logs : List LogEntry) :
    (∀ x ∈ (passLoop ctx head logs).1, x ∈ logs)
    ∧ (∀ em ∈ (passLoop ctx head logs).2.1,
        em.raw ∈ logs ∧ em.head = head ∧ em.raw.blockNumber ≤ head - 2) := by
  induction logs with
  | nil => simp [passLoop]
  | cons l rest ih =>
    obtain ⟨ih1, ih2⟩ := ih
    rcases hp : passLoop ctx head rest with ⟨np, ems, ab⟩
    rw [hp] at ih1 ih2
    by_cases hb : l.blockNumber > head - 2
    · cases ab
      · simp only [passLoop, if_pos hb, hp]
        refine ⟨?_, ?_⟩
        · intro x hx
          rcases List.mem_cons.mp hx with h | h
          · exact h ▸ List.mem_cons_self _ _
          · exact List.mem_cons_of_mem _ (ih1 x h)
        · intro em hem
          obtain ⟨h1, h2, h3⟩ := ih2 em hem
          exact ⟨List.mem_cons_of_mem _ h1, h2, h3⟩
      · simp only [passLoop, if_pos hb, hp]
        refine ⟨?_, ?_⟩
        · intro x hx; simp at hx
        · intro em hem
          obtain ⟨h1, h2, h3⟩ := ih2 em hem
          exact ⟨List.mem_cons_of_mem _ h1, h2, h3⟩
    · cases hpe : processEntry ctx head l with
      | none =>
        simp only [passLoop, if_neg hb, hpe]
        refine ⟨?_, ?_⟩
        · intro x hx; simp at hx
        · intro em hem; simp at hem
      | some em0 =>
        simp only [passLoop, if_neg hb, hpe, hp]
        refine ⟨?_, ?_⟩
        · intro x hx; exact List.mem_cons_of_mem _ (ih1 x hx)
        · intro em hem
          rcases List.mem_cons.mp hem with h | h
          · subst h
            obtain ⟨he1, he2⟩ := processEntry_some ctx head l em hpe
            refine ⟨he2 ▸ List.mem_cons_self _ _, he1, ?_⟩
            rw [he2]; omega
          · obtain ⟨h1, h2, h3⟩ := ih2 em h
            exact ⟨List.mem_cons_of_mem _ h1, h2, h3⟩

theorem onHeader_spec {V : Type} (ctx : EvCtx V) (n : Int) (pending : List LogEntry) :
    (∀ x ∈ (onHeader ctx n pending).1, x ∈ pending)
    ∧ (∀ em ∈ (onHeader ctx n pending).2,
        em.raw ∈ pending ∧ em.head = n ∧ em.raw.blockNumber ≤ n - 2) := by
  unfold onHeader
  by_cases hn : n = 0
  · simp [hn]
  · rcases hp : passLoop ctx n pending with ⟨np, ems, ab⟩
    have hs := passLoop_spec ctx n pending
    rw [hp] at hs
    simp only [if_neg hn, hp]
    cases ab
    · exact ⟨hs.1, hs.2⟩
    · exact ⟨fun x hx => by simp at hx, hs.2⟩

theorem stepTrigger_spec {V : Type} (ctx : EvCtx V) (st : List LogEntry) (e : InEvent) :
    (∀ x ∈ (stepTrigger ctx st e).1, x ∈ st ∨ InEvent.log false x = e)
    ∧ (∀ em ∈ (stepTrigger ctx st e).2,
        em.raw ∈ st ∧ 2 ≤ em.head - em.raw.blockNumber) := by
  cases e with
  | log removed l =>
    cases removed
    · refine ⟨?_, by simp [stepTrigger]⟩
      intro x hx
      simp only [stepTrigger] at hx
      rcases List.mem_append.mp hx with h | h
      · exact Or.inl h
      · simp at h; subst h; exact Or.inr rfl
    · refine ⟨?_, by simp [stepTrigger]⟩
      intro x hx
      simp only [stepTrigger] at hx
      exact Or.inl (List.mem_filter.mp hx).1
  | header n =>
    have hs := onHeader_spec ctx n st
    exact ⟨fun x hx => Or.inl (hs.1 x hx),
      fun em hem => ⟨(hs.2 em hem).1, by have := (hs.2 em hem).2; omega⟩⟩

theorem runTrigger_emissions {V : Type} (ctx : EvCtx V) (st : List LogEntry)
    (evs : List InEvent) :
    ∀ em ∈ (runTrigger ctx st evs).2, 2 ≤ em.head - em.raw.blockNumber := by
  induction evs generalizing st with
  | nil => simp [runTrigger]
  | cons e evs ih =>
    intro em hem
    rcases h1 : stepTrigger ctx st e with ⟨st1, ems1⟩
    rcases h2 : runTrigger ctx st1 evs with ⟨st2, ems2⟩
    simp only [runTrigger, h1, h2] at hem
    rcases List.mem_append.mp hem with h | h
    · exact ((stepTrigger_spec ctx st e).2 em (by rw [h1]; exact h)).2
    · exact ih st1 em (by rw [h2]; exact h)

/-- C4.  For every log entry buffered by the event trigger, a notification
for that entry is never emitted while `headBlockNumber - entryBlockNumber < 2`:
in any run of the trigger, every emitted notification was produced during a
header pass whose head number satisfies `head - entryBlockNumber >= 2`. -/
theorem c4_confirmation_lag {V : Type} (ctx : EvCtx V) (st : List LogEntry)
    (evs : List InEvent) (em : Emission V) (hm : em ∈ (runTrigger ctx st evs).2) :
    2 ≤ em.head - em.raw.blockNumber :=
  runTrigger_emissions ctx st evs em hm

/-- Witness for `c4_confirmation_lag`: a log in block 3 arriving and then a
header for block 10; the entry is emitted during that pass and `10 - 3 ≥ 2`. -/
theorem c4_confirmation_lag_witness : (2 : Int) ≤ 10 - 3 :=
  c4_confirmation_lag (V := Nat)
    ⟨[], fun _ => none, fun _ _ => [], fun _ _ => 0⟩ []
    [.log false ⟨5, 3, 0⟩, .header 10] ⟨10, ⟨5, 3, 0⟩, []⟩ (by decide)

theorem runTrigger_state_append {V : Type} (ctx : EvCtx V) (st : List LogEntry)
    (a b : List InEvent) :
    (runTrigger ctx st (a ++ b)).1 = (runTrigger ctx (runTrigger ctx st a).1 b).1 := by
  induction a generalizing st with
  | nil => simp [runTrigger]
  | cons e a ih =>
    rcases h1 : stepTrigger ctx st e with ⟨st1, ems1⟩
    rcases h2 : runTrigger ctx st1 (a ++ b) with ⟨st2, ems2⟩
    rcases h3 : runTrigger ctx st1 a with ⟨st3, ems3⟩
    have key := ih st1
    rw [h2, h3] at key
    simp only [List.cons_append, runTrigger, h1, h2, h3, List.append_eq]
    exact key

theorem runTrigger_single_state {V : Type} (ctx : EvCtx V) (st : List LogEntry)
    (e : InEvent) : (runTrigger ctx st [e]).1 = (stepTrigger ctx st e).1 := by
  rcases h : stepTrigger ctx st e with ⟨st1, ems1⟩
  simp [runTrigger, h]

theorem noHash_run {V : Type} (ctx : EvCtx V) (H : Nat) (st : List LogEntry)
    (evs : List InEvent) (hst : ∀ x ∈ st, x.blockHash ≠ H)
    (hevs : ∀ l : LogEntry, InEvent.log false l ∈ evs → l.blockHash ≠ H) :
    (∀ x ∈ (runTrigger ctx st evs).1, x.blockHash ≠ H)
    ∧ (∀ em ∈ (runTrigger ctx st evs).2, em.raw.blockHash ≠ H) := by
  induction evs generalizing st with
  | nil => exact ⟨by simpa [runTrigger] using hst, by simp [runTrigger]⟩
  | cons e evs ih =>
    rcases h1 : stepTrigger ctx st e with ⟨st1, ems1⟩
    have hstep := stepTrigger_spec ctx st e
    rw [h1] at hstep
    have hst1 : ∀ x ∈ st1, x.blockHash ≠ H := by
      intro x hx
      rcases hstep.1 x hx with h | h
      · exact hst x h
      · exact hevs x (by rw [h]; exact List.mem_cons_self _ _)
    have hevs1 : ∀ l : LogEntry, InEvent.log false l ∈ evs → l.blockHash ≠ H :=
      fun l hl => hevs l (List.mem_cons_of_mem _ hl)
    have hrec := ih st1 hst1 hevs1
    rcases h2 : runTrigger ctx st1 evs with ⟨st2, ems2⟩
    rw [h2] at hrec
    simp only [runTrigger, h1, h2]
    refine ⟨hrec.1, ?_⟩
    intro em hem
    rcases List.mem_append.mp hem with h | h
    · exact hst em.raw ((hstep.2 em h).1)
    · exact hrec.2 em h

/-- C5.  When a log flagged `removed` is delivered, every buffered entry
sharing its block hash is purged, and — as long as no log with that block
hash arrives again — no entry with that block hash is ever emitted in any
later confirmation pass, even if its block number would satisfy the
confirmation condition. -/
theorem c5_reorg_purge {V : Type} (ctx : EvCtx V) (st0 : List LogEntry)
    (pre post : List InEvent) (r : LogEntry) :
    (∀ x ∈ (runTrigger ctx st0 (pre ++ [.log true r])).1, x.blockHash ≠ r.blockHash)
    ∧ ((∀ l : LogEntry, InEvent.log false l ∈ post → l.blockHash ≠ r.blockHash) →
        ∀ em ∈ (runTrigger ctx (runTrigger ctx st0 (pre ++ [.log true r])).1 post).2,
          em.raw.blockHash ≠ r.blockHash) := by
  have hpurged : ∀ x ∈ (runTrigger ctx st0 (pre ++ [.log true r])).1,
      x.blockHash ≠ r.blockHash := by
    intro x hx
    rw [runTrigger_state_append, runTrigger_single_state] at hx
    simp only [stepTrigger] at hx
    exact of_decide_eq_true (List.mem_filter.mp hx).2
  exact ⟨hpurged, fun hpost =>
    (noHash_run ctx r.blockHash _ post hpurged hpost).2⟩

/-- Witness for `c5_reorg_purge`: entry with hash 1 arrives, a removed log
with hash 1 purges it, later an entry with hash 2 arrives and is emitted;
the emission's hash differs from the purged hash. -/
theorem c5_reorg_purge_witness : (2 : Nat) ≠ 1 :=
  (c5_reorg_purge (V := Nat)
      ⟨[], fun _ => none, fun _ _ => [], fun _ _ => 0⟩ []
      [.log false ⟨1, 3, 0⟩] [.log false ⟨2, 4, 0⟩, .header 20] ⟨1, 3, 0⟩).2
    (by
      intro l hl
      simp only [List.mem_cons, List.not_mem_nil, or_false] at hl
      rcases hl with h | h
      · injection h with h1 h2
        subst h2
        decide
      · exact absurd h (by simp))
    ⟨20, ⟨2, 4, 0⟩, []⟩ (by decide)

theorem filterLoop_clean_append {V : Type} (ctx : EvCtx V) (dec : List Char → V)
    (pre rest : List EvInput) (h : ∀ i ∈ pre, fieldMismatch ctx dec i = false) :
    filterLoop ctx dec (pre ++ rest) =
      ((filterLoop ctx dec rest).1.map
          (fun e => (pre.filter (fieldFiltered ctx)).map (fun i => (i.name, dec i.name)) ++ e),
        (pre.filter (fieldFiltered ctx)).map (fun i => i.name) ++ (filterLoop ctx dec rest).2) := by
  induction pre with
  | nil =>
    rcases hr : filterLoop ctx dec rest with ⟨r, tr⟩
    cases r <;> simp [hr]
  | cons i pre ih =>
    have hi := h i (List.mem_cons_self _ _)
    have hpre : ∀ j ∈ pre, fieldMismatch ctx dec j = false :=
      fun j hj => h j (List.mem_cons_of_mem _ hj)
    have ihh := ih hpre
    unfold fieldMismatch at hi
    rcases hr : filterLoop ctx dec rest with ⟨r, tr⟩
    rw [hr] at ihh
    cases hb : ctx.bag i.name with
    | none =>
      rw [hb] at hi
      simp only [List.cons_append, filterLoop, hb, List.append_eq, ihh]
      cases r <;> simp [fieldFiltered, hb]
    | some fv =>
      rw [hb] at hi
      have heq : ctx.enc i.type (dec i.name) = ctx.enc i.type fv := by
        by_contra hne
        simp [hne] at hi
      simp only [List.cons_append, filterLoop, hb, List.append_eq, ihh]
      rw [if_neg (not_not_intro heq)]
      cases r <;> simp [fieldFiltered, hb]

/-- C3.  For a confirmed log entry processed by the event trigger, walking
the descriptor inputs in declaration order: if some filtered input's decoded
value encodes differently from the caller's filter value, then (taking the
first such input `bad`) no notification is emitted for the entry, and the
fields actually compared are exactly the filtered inputs declared up to and
including `bad` — no filtered field declared after the mismatch is compared
or evaluated.  If every filtered field matches, exactly one notification is
produced, carrying the raw log plus the decoded values of exactly those input
names that are keys of the caller's filter bag, in declaration order. -/
theorem c3_short_circuit {V : Type} (ctx : EvCtx V) (head : Int) (l : LogEntry) :
    (∀ pre bad post,
      ctx.inputs = pre ++ bad :: post →
      (∀ i ∈ pre, fieldMismatch ctx (ctx.decode l) i = false) →
      fieldMismatch ctx (ctx.decode l) bad = true →
      processEntry ctx head l = none
      ∧ (filterLoop ctx (ctx.decode l) ctx.inputs).2
          = (pre.filter (fieldFiltered ctx)).map (fun i => i.name) ++ [bad.name])
    ∧ ((∀ i ∈ ctx.inputs, fieldMismatch ctx (ctx.decode l) i = false) →
        processEntry ctx head l =
          some ⟨head, l,
            (ctx.inputs.filter (fieldFiltered ctx)).map
              (fun i => (i.name, ctx.decode l i.name))⟩) := by
  constructor
  · intro pre bad post hsplit hpre hbad
    obtain ⟨fv, hfv, hne⟩ :
        ∃ fv, ctx.bag bad.name = some fv ∧
          ctx.enc bad.type (ctx.decode l bad.name) ≠ ctx.enc bad.type fv := by
      unfold fieldMismatch at hbad
      cases hbb : ctx.bag bad.name with
      | none => rw [hbb] at hbad; simp at hbad
      | some fv => rw [hbb] at hbad; exact ⟨fv, rfl, by simpa using hbad⟩
    have hstep : filterLoop ctx (ctx.decode l) (bad :: post) = (none, [bad.name]) := by
      simp only [filterLoop, hfv, if_pos hne]
    have hfl := filterLoop_clean_append ctx (ctx.decode l) pre (bad :: post) hpre
    rw [hstep] at hfl
    simp only [Option.map_none'] at hfl
    constructor
    · unfold processEntry
      rw [hsplit, hfl]
    · rw [hsplit, hfl]
  · intro hall
    have hfl := filterLoop_clean_append ctx (ctx.decode l) ctx.inputs [] hall
    rw [List.append_nil] at hfl
    have hnil : filterLoop ctx (ctx.decode l) ([] : List EvInput) = (some [], []) := rfl
    rw [hnil] at hfl
    simp only [Option.map_some', List.append_nil] at hfl
    unfold processEntry
    rw [hfl]

/-- Witness for `c3_short_circuit`: three filtered inputs `a`, `b`, `c` where
`b` (the second) mismatches; the entry produces no notification and only `a`
and `b` are compared — `c` is never evaluated. -/
theorem c3_short_circuit_witness :
    processEntry (V := Nat)
      ⟨[⟨false, "t".data, "a".data⟩, ⟨false, "t".data, "b".data⟩,
          ⟨false, "t".data, "c".data⟩],
        (fun n => if n = "a".data then some 1 else
          if n = "b".data then some 5 else
          if n = "c".data then some 1 else none),
        (fun _ v => List.replicate v 'x'),
        (fun _ n => if n = "b".data then 9 else 1)⟩
      10 ⟨1, 1, 1⟩ = none
    ∧ (filterLoop (V := Nat)
        ⟨[⟨false, "t".data, "a".data⟩, ⟨false, "t".data, "b".data⟩,
            ⟨false, "t".data, "c".data⟩],
          (fun n => if n = "a".data then some 1 else
            if n = "b".data then some 5 else
            if n = "c".data then some 1 else none),
          (fun _ v => List.replicate v 'x'),
          (fun _ n => if n = "b".data then 9 else 1)⟩
        ((fun _ n => if n = "b".data then 9 else 1) (⟨1, 1, 1⟩ : LogEntry))
        [⟨false, "t".data, "a".data⟩, ⟨false, "t".data, "b".data⟩,
          ⟨false, "t".data, "c".data⟩]).2 = ["a".data, "b".data] := by
  have h := (c3_short_circuit (V := Nat)
      ⟨[⟨false, "t".data, "a".data⟩, ⟨false, "t".data, "b".data⟩,
          ⟨false, "t".data, "c".data⟩],
        (fun n => if n = "a".data then some 1 else
          if n = "b".data then some 5 else
          if n = "c".data then some 1 else none),
        (fun _ v => List.replicate v 'x'),
        (fun _ n => if n = "b".data then 9 else 1)⟩
      10 ⟨1, 1, 1⟩).1
    [⟨false, "t".data, "a".data⟩] ⟨false, "t".data, "b".data⟩ [⟨false, "t".data, "c".data⟩]
    rfl (by decide) (by decide)
  exact ⟨h.1, h.2.trans (by decide)⟩

/-- C2 is violated by the code (the `return` on source line 211 exits the
whole header callback, not just the processing of one entry): in the pass
below, head block 10, the buffer holds a confirmed entry (block 8) that fails
its parameter filter and a still-pending entry (block 9, within the 2-block
lag window, so by the claim it must be re-appended).  The pass ends with an
empty buffer and no notification: the pending entry is silently discarded. -/
theorem c2_buffer_loss :
    onHeader (V := Nat)
      ⟨[⟨false, "uint256".data, "a".data⟩],
        (fun n => if n = "a".data then some 1 else none),
        (fun _ v => List.replicate v 'x'),
        (fun l _ => l.ldata)⟩
      10 [⟨1, 8, 2⟩, ⟨2, 9, 1⟩] = ([], [])
    ∧ ((⟨2, 9, 1⟩ : LogEntry).blockNumber > 10 - 2) :=
  ⟨by decide, by decide⟩

theorem isSameAddress_eq_addrEqSpec (a b : List Char) (hb : b ≠ []) :
    isSameAddress a b = addrEqSpec a b := by
  unfold isSameAddress addrEqSpec
  by_cases ha : a = []
  · subst ha
    have h0 : startsWith0x ([] : List Char) = false := rfl
    simp [h0, Ne.symm hb]
  · have hane : a.isEmpty = false := by
      cases a with
      | nil => exact absurd rfl ha
      | cons c cs => rfl
    have hbne : b.isEmpty = false := by
      cases b with
      | nil => exact absurd rfl hb
      | cons c cs => rfl
    simp [hane, hbne]

theorem catchUpAux_complete (fetch : Int → Option (List TxRec)) (flt : TxFilters) :
    ∀ (fuel : Nat) (l : Int),
      (∀ b ∈ (List.range fuel).map (fun j : Nat => l + 1 + (j : Int)), (fetch b).isSome) →
      catchUpAux fetch flt fuel l =
        (l + (fuel : Int),
          ((List.range fuel).map (fun j : Nat => l + 1 + (j : Int))).flatMap
            (fun b => ((fetch b).getD []).filter (passesTxFilters flt))) := by
  intro fuel
  induction fuel with
  | zero => intro l _; simp [catchUpAux]
  | succ fuel ih =>
    intro l hl
    have hmapped : (List.range (fuel + 1)).map (fun j : Nat => l + 1 + (j : Int)) =
        (l + 1) :: (List.range fuel).map (fun j : Nat => (l + 1) + 1 + (j : Int)) := by
      rw [List.range_succ_eq_map, List.map_cons, List.map_map]
      refine congrArg₂ _ (by push_cast; ring) (List.map_congr_left ?_)
      intro j _
      simp only [Function.comp_apply]
      push_cast
      ring
    rw [hmapped] at hl
    have h1 : (fetch (l + 1)).isSome := hl (l + 1) (List.mem_cons_self _ _)
    obtain ⟨txs, htxs⟩ := Option.isSome_iff_exists.mp h1
    have hrec := ih (l + 1) (fun b hb => hl b (List.mem_cons_of_mem _ hb))
    simp only [catchUpAux, htxs, hrec]
    rw [hmapped]
    simp only [Prod.mk.injEq]
    refine ⟨by push_cast; ring, ?_⟩
    rw [List.flatMap_cons, htxs]
    rfl

theorem catchUpAux_abandoned (fetch : Int → Option (List TxRec)) (flt : TxFilters) :
    ∀ (j : Nat) (fuel : Nat) (l : Int), j < fuel →
      (∀ k : Nat, k < j → (fetch (l + 1 + (k : Int))).isSome) →
      fetch (l + 1 + (j : Int)) = none →
      catchUpAux fetch flt fuel l =
        (l + 1 + (j : Int),
          ((List.range j).map (fun k : Nat => l + 1 + (k : Int))).flatMap
            (fun b => ((fetch b).getD []).filter (passesTxFilters flt))) := by
  intro j
  induction j with
  | zero =>
    intro fuel l hlt _ hnone
    obtain ⟨m, rfl⟩ : ∃ m, fuel = m + 1 := ⟨fuel - 1, by omega⟩
    simp only [Nat.cast_zero, add_zero] at hnone
    simp [catchUpAux, hnone]
  | succ j ih =>
    intro fuel l hlt hsome hnone
    obtain ⟨m, rfl⟩ : ∃ m, fuel = m + 1 := ⟨fuel - 1, by omega⟩
    have h1 : (fetch (l + 1)).isSome := by
      have := hsome 0 (by omega)
      simpa using this
    obtain ⟨txs, htxs⟩ := Option.isSome_iff_exists.mp h1
    have hrec := ih m (l + 1) (by omega)
      (fun k hk => by
        have := hsome (k + 1) (by omega)
        convert this using 3
        push_cast; ring)
      (by
        have : l + 1 + 1 + (j : Int) = l + 1 + ((j + 1 : Nat) : Int) := by push_cast; ring
        rw [this]; exact hnone)
    simp only [catchUpAux, htxs, hrec]
    have hmapped : (List.range (j + 1)).map (fun k : Nat => l + 1 + (k : Int)) =
        (l + 1) :: (List.range j).map (fun k : Nat => (l + 1) + 1 + (k : Int)) := by
      rw [List.range_succ_eq_map, List.map_cons, List.map_map]
      refine congrArg₂ _ (by push_cast; ring) (List.map_congr_left ?_)
      intro k _
      simp only [Function.comp_apply]
      push_cast
      ring
    rw [hmapped]
    simp only [Prod.mk.injEq]
    refine ⟨by push_cast; ring, ?_⟩
    rw [List.flatMap_cons, htxs]
    rfl

/-- C8.  For every transaction-trigger run: a header with a falsy (zero)
number is ignored; the first nonzero header received while unanchored
(`lastBlock <= 0`) only anchors `lastBlock` to the header's number and
forwards nothing; afterwards, blocks are processed one at a time in
increasing order while `head - lastBlock > 2` — each iteration increments
`lastBlock` and fetches that block with transactions; when every block in the
window has a transaction list, the forwarded transactions are exactly those
of blocks `lastBlock+1 .. head-2` (in order) that pass the optional from/to
filters, and `lastBlock` ends at `max lastBlock (head - 2)`; if the `j`-th
fetched block reports no transaction list, the cycle is abandoned there
without error and without retry (only the earlier blocks' transactions were
forwarded, and `lastBlock` remains just past the failed block); a transaction
passes the filters exactly when each supplied (truthy) filter matches the
corresponding field, where two `0x`-prefixed strings compare
case-insensitively and all other values compare by exact equality. -/
theorem c8_tx_trigger (fetch : Int → Option (List TxRec)) (flt : TxFilters)
    (lastBlock head : Int) :
    (onTxHeader fetch flt lastBlock 0 = (lastBlock, []))
    ∧ (head ≠ 0 → lastBlock ≤ 0 → onTxHeader fetch flt lastBlock head = (head, []))
    ∧ (head ≠ 0 → 0 < lastBlock →
        (∀ b ∈ blockRange lastBlock head, (fetch b).isSome) →
        onTxHeader fetch flt lastBlock head =
          (max lastBlock (head - 2),
            (blockRange lastBlock head).flatMap
              (fun b => ((fetch b).getD []).filter (passesTxFilters flt))))
    ∧ (∀ j : Nat, head ≠ 0 → 0 < lastBlock →
        (j : Int) < head - 2 - lastBlock →
        (∀ k : Nat, k < j → (fetch (lastBlock + 1 + (k : Int))).isSome) →
        fetch (lastBlock + 1 + (j : Int)) = none →
        onTxHeader fetch flt lastBlock head =
          (lastBlock + 1 + (j : Int),
            ((List.range j).map (fun k : Nat => lastBlock + 1 + (k : Int))).flatMap
              (fun b => ((fetch b).getD []).filter (passesTxFilters flt))))
    ∧ (∀ tx : TxRec,
        passesTxFilters flt tx = true ↔
          ((flt.fromF = [] ∨ addrEqSpec tx.sender flt.fromF = true)
            ∧ (flt.toF = [] ∨ addrEqSpec tx.recipient flt.toF = true))) := by
  have hne : ∀ (x : List Char), x ≠ [] → x.isEmpty = false := by
    intro x hx
    cases x with
    | nil => exact absurd rfl hx
    | cons c cs => rfl
  refine ⟨by simp [onTxHeader], ?_, ?_, ?_, ?_⟩
  · intro h0 hla
    simp [onTxHeader, h0, hla]
  · intro h0 hla hall
    unfold blockRange at hall
    have hc := catchUpAux_complete fetch flt (head - 2 - lastBlock).toNat lastBlock hall
    simp only [onTxHeader, if_neg h0, if_neg (by omega : ¬ lastBlock ≤ 0)]
    unfold catchUp
    rw [hc]
    unfold blockRange
    simp only [Prod.mk.injEq]
    exact ⟨by omega, trivial⟩
  · intro j h0 hla hj hsome hnone
    have := catchUpAux_abandoned fetch flt j (head - 2 - lastBlock).toNat lastBlock
      (by omega) hsome hnone
    simp only [onTxHeader, if_neg h0, if_neg (by omega : ¬ lastBlock ≤ 0)]
    unfold catchUp
    exact this
  · intro tx
    unfold passesTxFilters
    by_cases hfrom : flt.fromF = []
    · by_cases hto : flt.toF = []
      · simp [hfrom, hto]
      · rw [isSameAddress_eq_addrEqSpec tx.recipient flt.toF hto]
        simp [hfrom, hne _ hto, hto]
    · by_cases hto : flt.toF = []
      · rw [isSameAddress_eq_addrEqSpec tx.sender flt.fromF hfrom]
        simp [hto, hne _ hfrom, hfrom]
      · rw [isSameAddress_eq_addrEqSpec tx.sender flt.fromF hfrom,
          isSameAddress_eq_addrEqSpec tx.recipient flt.toF hto]
        simp [hne _ hfrom, hne _ hto, hfrom, hto]

/-- Witness for `c8_tx_trigger`: anchored at block 1, a header for block 6
arrives and every block in the window `2..4` is fetched with a single
transaction; all three are forwarded (no filters) and `lastBlock` ends at 4. -/
theorem c8_tx_trigger_witness :
    onTxHeader (fun _ => some [⟨"a".data, "b".data, 0⟩]) ⟨[], []⟩ 1 6 =
      (4, [⟨"a".data, "b".data, 0⟩, ⟨"a".data, "b".data, 0⟩, ⟨"a".data, "b".data, 0⟩]) := by
  have h := ((c8_tx_trigger (fun _ => some [⟨"a".data, "b".data, 0⟩]) ⟨[], []⟩ 1 6).2.2.1
    (by decide) (by decide) (fun b _ => rfl))
  exact h.trans (by decide)

/-! Character-class and string helper lemmas for the parser proofs. -/

theorem ws_not_name {c : Char} (h : wsChar c = true) : nameChar c = false := by
  unfold wsChar at h
  simp only [Bool.or_eq_true, decide_eq_true_eq] at h
  rcases h with ((((h | h) | h) | h) | h) | h <;> subst h <;> decide

theorem name_not_ws {c : Char} (h : nameChar c = true) : wsChar c = false := by
  cases hw : wsChar c with
  | false => rfl
  | true => rw [ws_not_name hw] at h; exact absurd h (by simp)

theorem name_not_space {c : Char} (h : nameChar c = true) : (c == ' ') = false := by
  cases hc : c == ' ' with
  | false => rfl
  | true =>
    have hsp : c = ' ' := by simpa using hc
    subst hsp
    exact absurd h (by decide)

/-- A `p`-satisfying prefix followed by a non-`p` head splits `takeWhile`
and `dropWhile`. -/
theorem takeWhile_all_append {p : Char → Bool} (a b : List Char)
    (ha : ∀ c ∈ a, p c = true) (hb : ∀ x, b.head? = some x → p x = false) :
    (a ++ b).takeWhile p = a ∧ (a ++ b).dropWhile p = b := by
  induction a with
  | nil =>
    simp only [List.nil_append]
    cases b with
    | nil => exact ⟨rfl, rfl⟩
    | cons x xs =>
      have hx := hb x rfl
      refine ⟨List.takeWhile_cons_of_neg ?_, List.dropWhile_cons_of_neg ?_⟩ <;>
        simp [hx]
  | cons c a ih =>
    have hc := ha c (List.mem_cons_self _ _)
    have rec := ih (fun d hd => ha d (List.mem_cons_of_mem _ hd))
    rw [List.cons_append, List.takeWhile_cons_of_pos hc,
      List.dropWhile_cons_of_pos hc, rec.1]
    exact ⟨rfl, rec.2⟩

theorem dropWhile_ws_append (w l : List Char) (hw : ∀ c ∈ w, wsChar c = true) :
    (w ++ l).dropWhile wsChar = l.dropWhile wsChar := by
  induction w with
  | nil => simp
  | cons c w ih =>
    have hc := hw c (List.mem_cons_self _ _)
    rw [List.cons_append, List.dropWhile_cons_of_pos hc]
    exact ih (fun d hd => hw d (List.mem_cons_of_mem _ hd))

theorem dropWhile_head_neg {p : Char → Bool} (l : List Char)
    (h : ∀ x, l.head? = some x → p x = false) : l.dropWhile p = l := by
  cases l with
  | nil => rfl
  | cons c cs => exact List.dropWhile_cons_of_neg (by simp [h c rfl])

/-! Tokenize lemmas. -/

/-- The one-step unfolding of `tokenize` on a cons cell. -/
theorem tokenize_cons (c : Char) (r : List Char) :
    tokenize (c :: r) =
      if wsChar c then tokenize r
      else
        match tokenize r, r.headD ' ' with
        | [], _ => [[c]]
        | t :: ts, d => if wsChar d then [c] :: t :: ts else (c :: t) :: ts := rfl

theorem tokenize_ws_front (w l : List Char) (hw : ∀ c ∈ w, wsChar c = true) :
    tokenize (w ++ l) = tokenize l := by
  induction w with
  | nil => rfl
  | cons c w ih =>
    have hc := hw c (List.mem_cons_self _ _)
    rw [List.cons_append, tokenize_cons, if_pos hc]
    exact ih (fun d hd => hw d (List.mem_cons_of_mem _ hd))

theorem tokenize_nil_iff (l : List Char) :
    tokenize l = [] ↔ ∀ c ∈ l, wsChar c = true := by
  induction l with
  | nil => simp [tokenize]
  | cons c r ih =>
    cases hc : wsChar c with
    | true =>
      rw [tokenize_cons, if_pos hc, ih]
      constructor
      · intro h d hd
        rcases List.mem_cons.mp hd with h' | h'
        · exact h' ▸ hc
        · exact h d h'
      · intro h d hd
        exact h d (List.mem_cons_of_mem _ hd)
    | false =>
      rw [tokenize_cons, if_neg (by simp [hc])]
      constructor
      · intro h
        exact absurd h (by
          cases htr : tokenize r with
          | nil => simp
          | cons t ts =>
            simp only [htr]
            split <;> simp)
      · intro h
        exact absurd (h c (List.mem_cons_self _ _)) (by simp [hc])

theorem tokenize_ws_suffix (l w : List Char) (hw : ∀ c ∈ w, wsChar c = true) :
    tokenize (l ++ w) = tokenize l := by
  induction l with
  | nil =>
    simp only [List.nil_append]
    rw [(tokenize_nil_iff w).mpr hw]
    rfl
  | cons c r ih =>
    cases hc : wsChar c with
    | true =>
      rw [List.cons_append, tokenize_cons, if_pos hc, tokenize_cons, if_pos hc]
      exact ih
    | false =>
      rw [List.cons_append, tokenize_cons, if_neg (by simp [hc]),
        tokenize_cons, if_neg (by simp [hc])]
      cases r with
      | nil =>
        have hwt : tokenize w = [] := (tokenize_nil_iff w).mpr hw
        rw [List.nil_append, hwt]
        rfl
      | cons d rs =>
        rw [ih]
        rfl

theorem trimChars_decomp (p : List Char) :
    ∃ w1 w2, p = w1 ++ trimChars p ++ w2
      ∧ (∀ c ∈ w1, wsChar c = true) ∧ (∀ c ∈ w2, wsChar c = true) := by
  refine ⟨p.takeWhile wsChar,
    ((p.dropWhile wsChar).reverse.takeWhile wsChar).reverse, ?_, ?_, ?_⟩
  · unfold trimChars
    conv_lhs => rw [← List.takeWhile_append_dropWhile (p := wsChar) (l := p)]
    rw [List.append_assoc]
    congr 1
    conv_rhs => rw [← List.reverse_append, List.takeWhile_append_dropWhile,
      List.reverse_reverse]
  · exact fun c hc => List.mem_takeWhile_imp hc
  · intro c hc
    exact List.mem_takeWhile_imp (List.mem_reverse.mp hc)

theorem tokenize_trim (p : List Char) : tokenize (trimChars p) = tokenize p := by
  obtain ⟨w1, w2, hp, h1, h2⟩ := trimChars_decomp p
  conv_rhs => rw [hp, List.append_assoc]
  rw [tokenize_ws_front _ _ h1, tokenize_ws_suffix _ _ h2]

theorem trimChars_nil_iff (p : List Char) :
    trimChars p = [] ↔ tokenize p = [] := by
  constructor
  · intro h
    rw [← tokenize_trim, h]
    rfl
  · intro h
    have hws := (tokenize_nil_iff p).mp h
    unfold trimChars
    have hd : p.dropWhile wsChar = [] := by
      rw [List.dropWhile_eq_nil_iff]
      intro x hx
      exact hws x hx
    rw [hd]
    rfl

theorem jsTrimSplitWs_eq (p : List Char) :
    jsTrimSplitWs p = if tokenize p = [] then [[]] else tokenize p := by
  unfold jsTrimSplitWs
  by_cases ht : trimChars p = []
  · rw [if_pos ht, if_pos ((trimChars_nil_iff p).mp ht)]
  · rw [if_neg ht, tokenize_trim, if_neg (fun hc => ht ((trimChars_nil_iff p).mpr hc))]

theorem parseEventParam_eq (p : List Char) :
    parseEventParam p =
      if GoodEventParam p then some (claimEventInput p) else none := by
  unfold parseEventParam
  rw [jsTrimSplitWs_eq]
  by_cases htk : tokenize p = []
  · rw [if_pos htk, if_neg (show ¬ GoodEventParam p by simp [GoodEventParam, htk])]
  · rw [if_neg htk]
    rcases htok : tokenize p with _ | ⟨a, _ | ⟨b, _ | ⟨c, _ | ⟨d, rest⟩⟩⟩⟩
    · exact absurd htok htk
    · rw [if_neg (show ¬ GoodEventParam p by simp [GoodEventParam, htok])]
    · rw [if_pos (show GoodEventParam p from Or.inl (by rw [htok]; rfl))]
      simp [claimEventInput, htok]
    · by_cases hbi : b = "indexed".data
      · subst hbi
        rw [if_pos (show GoodEventParam p from
          Or.inr ⟨by rw [htok]; rfl, by rw [htok]; rfl⟩)]
        simp [claimEventInput, htok]
      · rw [if_neg (show ¬ GoodEventParam p by
          unfold GoodEventParam
          rw [htok]
          intro hcon
          rcases hcon with h | ⟨h, h2⟩
          · simp at h
          · simp at h2
            exact hbi h2)]
        simp [hbi]
    · rw [if_neg (show ¬ GoodEventParam p by
        unfold GoodEventParam
        rw [htok]
        intro hcon
        rcases hcon with h | ⟨h, h2⟩ <;> simp at h)]

theorem mapM_eventParams_ok (pieces : List (List Char))
    (h : ∀ p ∈ pieces, GoodEventParam p) :
    pieces.mapM parseEventParam = some (pieces.map claimEventInput) := by
  induction pieces with
  | nil => rfl
  | cons p ps ih =>
    have hp := h p (List.mem_cons_self _ _)
    have hrest := ih (fun q hq => h q (List.mem_cons_of_mem _ hq))
    rw [List.mapM_cons, parseEventParam_eq, if_pos hp, hrest]
    rfl

theorem mapM_eventParams_inv (pieces : List (List Char)) (inputs : List EvInput)
    (h : pieces.mapM parseEventParam = some inputs) :
    (∀ p ∈ pieces, GoodEventParam p) ∧ inputs = pieces.map claimEventInput := by
  induction pieces generalizing inputs with
  | nil =>
    simp only [List.mapM_nil, pure, Option.some.injEq] at h
    exact ⟨by simp, by simp [← h]⟩
  | cons p ps ih =>
    rw [List.mapM_cons, parseEventParam_eq] at h
    by_cases hp : GoodEventParam p
    · rw [if_pos hp] at h
      cases hps : ps.mapM parseEventParam with
      | none => rw [hps] at h; exact absurd h (by simp)
      | some bs =>
        rw [hps] at h
        have h' : claimEventInput p :: bs = inputs := by simpa using h
        obtain ⟨hall, hbs⟩ := ih bs hps
        subst h'
        refine ⟨?_, ?_⟩
        · intro q hq
          rcases List.mem_cons.mp hq with h' | h'
          · exact h' ▸ hp
          · exact hall q h'
        · rw [List.map_cons, hbs]
    · rw [if_neg hp] at h
      exact absurd h (by simp)

theorem name_ne_space {c : Char} (h : nameChar c = true) : c ≠ ' ' := by
  intro hc
  subst hc
  exact absurd h (by decide)

theorem matchKwName_sound (kw t nm rest : List Char)
    (h : matchKwName kw t = some (nm, rest)) :
    ∃ kwp, t = kwp ++ nm ++ rest ∧ KwSpacesOk kw kwp ∧ NameOk nm := by
  have hfb : (if t.takeWhile nameChar = [] then none
      else some (t.takeWhile nameChar, t.dropWhile nameChar)) = some (nm, rest) →
      ∃ kwp, t = kwp ++ nm ++ rest ∧ KwSpacesOk kw kwp ∧ NameOk nm := by
    intro hf
    by_cases hemp : t.takeWhile nameChar = []
    · rw [if_pos hemp] at hf
      exact absurd hf (by simp)
    · rw [if_neg hemp] at hf
      obtain ⟨hnm, hrest⟩ := Prod.mk.injEq _ _ _ _ ▸ Option.some.inj hf
      refine ⟨[], ?_, Or.inl rfl, ?_⟩
      · rw [List.nil_append, ← hnm, ← hrest, List.takeWhile_append_dropWhile]
      · exact ⟨hnm ▸ hemp, fun c hc => List.mem_takeWhile_imp (hnm ▸ hc)⟩
  unfold matchKwName at h
  dsimp only at h
  by_cases hpre : kw.isPrefixOf t
  · rw [if_pos (by simp [hpre])] at h
    by_cases hg : ((!((t.drop kw.length).takeWhile (fun c => c = ' ')).isEmpty)
        && (match (t.drop kw.length).dropWhile (fun c => c = ' ') with
            | c :: _ => nameChar c
            | [] => false)) = true
    · rw [if_pos hg] at h
      obtain ⟨hsp, hhd⟩ := Bool.and_eq_true_iff.mp hg
      set r := t.drop kw.length with hr
      set sp := r.takeWhile (fun c => c = ' ') with hsp'
      set r2 := r.dropWhile (fun c => c = ' ') with hr2
      obtain ⟨hnm, hrest⟩ := Prod.mk.injEq _ _ _ _ ▸ Option.some.inj h
      have ht : t = kw ++ r := by
        obtain ⟨r', hre⟩ := List.isPrefixOf_iff_prefix.mp hpre
        rw [← hre, hr, ← hre, List.drop_left]
      have hrsp : r = sp ++ r2 := (List.takeWhile_append_dropWhile _ _).symm
      have hspws : ∀ c ∈ sp, c = ' ' := by
        intro c hc
        simpa using List.mem_takeWhile_imp (p := fun c => decide (c = ' ')) hc
      have hr2ne : ∃ c cs, r2 = c :: cs ∧ nameChar c = true := by
        cases hx : r2 with
        | nil => rw [hx] at hhd; exact absurd hhd (by simp)
        | cons c cs => rw [hx] at hhd; exact ⟨c, cs, rfl, hhd⟩
      obtain ⟨c, cs, hr2c, hcn⟩ := hr2ne
      have hr2split : r2 = nm ++ rest := by
        rw [← hnm, ← hrest, List.takeWhile_append_dropWhile]
      refine ⟨kw ++ sp, ?_, ?_, ?_⟩
      · rw [ht, hrsp, hr2split, List.append_assoc, List.append_assoc]
      · refine Or.inr ⟨sp.length, ?_, ?_⟩
        · have : sp ≠ [] := by simpa using hsp
          cases hy : sp with
          | nil => exact absurd hy this
          | cons a as => simp
        · conv_lhs => rw [List.eq_replicate_of_mem hspws]
      · constructor
        · rw [← hnm, hr2c]
          simp [List.takeWhile_cons_of_pos hcn]
        · intro d hd
          exact List.mem_takeWhile_imp (hnm ▸ hd)
    · rw [if_neg hg] at h
      exact hfb h
  · rw [if_neg (by simp [hpre])] at h
    exact hfb h

theorem matchOuter_sound (kw s nm ps tl : List Char)
    (h : matchOuter kw s = some (nm, ps, tl)) :
    ∃ w1 kwp w2, s = w1 ++ kwp ++ nm ++ w2 ++ '(' :: (ps ++ ')' :: tl)
      ∧ WsAll w1 ∧ KwSpacesOk kw kwp ∧ NameOk nm ∧ WsAll w2 ∧ ParamsOk ps := by
  unfold matchOuter at h
  cases hkn : matchKwName kw (dropWs s) with
  | none => rw [hkn] at h; exact absurd h (by simp)
  | some v =>
    obtain ⟨nm0, rest⟩ := v
    rw [hkn] at h
    dsimp only at h
    split at h
    all_goals rename_i spl1
    rotate_left
    · exact absurd h (by simp)
    · rename_i r1
      have heq := spl1
      by_cases hps0 : r1.takeWhile (fun c => c ≠ ')') = []
      · rw [if_pos hps0] at h
        exact absurd h (by simp)
      · rw [if_neg hps0] at h
        split at h
        all_goals rename_i spl2
        rotate_left
        · exact absurd h (by simp)
        · rename_i tl0
          have heq2 := spl2
          obtain ⟨hnm0, hps', htl'⟩ :
              nm0 = nm ∧ r1.takeWhile (fun c => c ≠ ')') = ps ∧ tl0 = tl := by
            have hinj := Option.some.inj h
            exact ⟨congrArg Prod.fst hinj,
              congrArg Prod.fst (congrArg Prod.snd hinj),
              congrArg Prod.snd (congrArg Prod.snd hinj)⟩
          subst hnm0
          obtain ⟨kwp, hts, hkwok, hnmok⟩ := matchKwName_sound kw (dropWs s) nm0 rest hkn
          refine ⟨s.takeWhile wsChar, kwp, rest.takeWhile wsChar,
            ?_, ?_, hkwok, hnmok, ?_, ?_, ?_⟩
          · have hs1 : s = s.takeWhile wsChar ++ dropWs s :=
              (List.takeWhile_append_dropWhile _ _).symm
            have hrest : rest = rest.takeWhile wsChar ++ ('(' :: r1) := by
              rw [← heq]
              exact (List.takeWhile_append_dropWhile _ _).symm
            have hr1 : r1 = ps ++ ')' :: tl := by
              rw [← hps', ← htl', ← heq2, List.takeWhile_append_dropWhile]
            conv_lhs => rw [hs1, hts, hrest, hr1]
            simp [List.append_assoc]
          · exact fun x hx => List.mem_takeWhile_imp hx
          · exact fun x hx => List.mem_takeWhile_imp hx
          · exact fun hcon => hps0 (hps' ▸ hcon)
          · intro hcon
            rw [← hps'] at hcon
            have := List.mem_takeWhile_imp hcon
            simp at this

theorem eventTailOk_iff (tl : List Char) : eventTailOk tl = true ↔ TailSemiOk tl := by
  unfold eventTailOk TailSemiOk
  rcases hf : tl.filter (fun c => !wsChar c) with _ | ⟨c, _ | ⟨d, rest⟩⟩
  · simp
  · constructor
    · intro h
      right
      have : c = ';' := by simpa using h
      rw [this]
    · intro h
      rcases h with h | h
      · exact absurd h (by simp)
      · simp only [List.cons.injEq] at h
        simp [h.1]
  · constructor
    · intro h
      exact absurd h (by simp)
    · intro h
      rcases h with h | h <;> simp at h

/-- The first character surviving `dropWhile (= ' ')` on an all-whitespace
string followed by `(` is never a name character. -/
theorem dropSpaces_ws_lparen (w2 X : List Char) (hw2 : WsAll w2) :
    ∀ x, ((w2 ++ '(' :: X).dropWhile (fun c => c = ' ')).head? = some x →
      nameChar x = false := by
  induction w2 with
  | nil =>
    intro x hx
    rw [List.nil_append, List.dropWhile_cons_of_neg (by simp)] at hx
    obtain rfl : x = '(' := by simpa using hx.symm
    decide
  | cons d w2' ih =>
    intro x hx
    have hd := hw2 d (List.mem_cons_self _ _)
    by_cases hsp : d = ' '
    · rw [List.cons_append, List.dropWhile_cons_of_pos (by simp [hsp])] at hx
      exact ih (fun e he => hw2 e (List.mem_cons_of_mem _ he)) x hx
    · rw [List.cons_append, List.dropWhile_cons_of_neg (by simp [hsp])] at hx
      obtain rfl : x = d := by simpa using hx.symm
      exact ws_not_name hd

theorem prefix_all_takeWhile {p : Char → Bool} (kw : List Char) :
    ∀ l : List Char, (∀ c ∈ kw, p c = true) → kw <+: l → kw <+: l.takeWhile p := by
  induction kw with
  | nil => intro l _ _; exact List.nil_prefix
  | cons c kws ih =>
    intro l hall h
    obtain ⟨r', rfl⟩ := h
    have hc := hall c (List.mem_cons_self _ _)
    rw [List.cons_append, List.takeWhile_cons_of_pos hc]
    have hrec := ih (kws ++ r') (fun d hd => hall d (List.mem_cons_of_mem _ hd))
      (List.prefix_append _ _)
    obtain ⟨w, hw⟩ := hrec
    exact ⟨w, by rw [← hw, List.cons_append]⟩

theorem matchKwName_complete (kw kwp nm R : List Char)
    (hkwAll : ∀ c ∈ kw, nameChar c = true)
    (hkwp : KwSpacesOk kw kwp) (hnm : NameOk nm)
    (hRhead : ∀ x, R.head? = some x → nameChar x = false)
    (hRnospace : ∀ x, (R.dropWhile (fun c => c = ' ')).head? = some x →
      nameChar x = false) :
    matchKwName kw (kwp ++ nm ++ R) = some (nm, R) := by
  obtain ⟨hnmne, hnmall⟩ := hnm
  have hsplit := takeWhile_all_append (p := nameChar) nm R hnmall hRhead
  rcases hkwp with hkwp | ⟨n, hn, hkwp⟩
  · -- no keyword region: the input is nm ++ R
    subst hkwp
    rw [List.nil_append]
    unfold matchKwName
    by_cases hpre : kw.isPrefixOf (nm ++ R)
    · -- kw is an all-name-character prefix of the input, hence of the maximal
      -- name run nm; the spaces test of the optional group then fails, so the
      -- engine falls back to reading the name directly
      have hkwnm : kw <+: nm := by
        have h2 := prefix_all_takeWhile kw (nm ++ R) hkwAll
          (List.isPrefixOf_iff_prefix.mp hpre)
        rwa [hsplit.1] at h2
      obtain ⟨nmr, hnmr⟩ := hkwnm
      have hdrop : (nm ++ R).drop kw.length = nmr ++ R := by
        rw [← hnmr, List.append_assoc, List.drop_left]
      have hguard : ((!(((nm ++ R).drop kw.length).takeWhile (fun c => c = ' ')).isEmpty)
          && (match ((nm ++ R).drop kw.length).dropWhile (fun c => c = ' ') with
              | c :: _ => nameChar c
              | [] => false)) = false := by
        rw [hdrop]
        cases hnmr2 : nmr with
        | nil =>
          rw [List.nil_append]
          have hmf : (match R.dropWhile (fun c => c = ' ') with
              | c :: _ => nameChar c
              | [] => false) = false := by
            cases hx : R.dropWhile (fun c => c = ' ') with
            | nil => rfl
            | cons y ys => exact hRnospace y (by rw [hx]; rfl)
          rw [hmf, Bool.and_false]
        | cons c nmr' =>
          have hcnm : nameChar c = true := by
            apply hnmall
            rw [← hnmr, hnmr2]
            exact List.mem_append_right _ (List.mem_cons_self _ _)
          rw [List.cons_append,
            List.takeWhile_cons_of_neg (by simp [name_ne_space hcnm])]
          rfl
      rw [if_pos (by simp [hpre]), if_neg (by simp [hguard])]
      rw [hsplit.1, hsplit.2, if_neg hnmne]
    · rw [if_neg (by simp [hpre])]
      rw [hsplit.1, hsplit.2, if_neg hnmne]
  · -- keyword plus n >= 1 spaces
    subst hkwp
    cases nm with
    | nil => exact absurd rfl hnmne
    | cons nmh nmt =>
      have hassoc : (kw ++ List.replicate n ' ') ++ (nmh :: nmt) ++ R =
          kw ++ (List.replicate n ' ' ++ ((nmh :: nmt) ++ R)) := by
        simp [List.append_assoc]
      unfold matchKwName
      rw [hassoc]
      have hpre : kw.isPrefixOf
          (kw ++ (List.replicate n ' ' ++ ((nmh :: nmt) ++ R))) = true :=
        List.isPrefixOf_iff_prefix.mpr (List.prefix_append _ _)
      rw [if_pos (by simp [hpre]), List.drop_left]
      dsimp only
      have hsp2 := takeWhile_all_append (p := fun c => decide (c = ' '))
        (List.replicate n ' ') ((nmh :: nmt) ++ R)
        (by intro c hc; simp [List.eq_of_mem_replicate hc])
        (by
          intro x hx
          rw [List.cons_append] at hx
          have hxe : x = nmh := by simpa using hx.symm
          rw [hxe]
          simpa using name_ne_space (hnmall nmh (List.mem_cons_self _ _)))
      rw [hsp2.1, hsp2.2]
      have hie : (List.replicate n ' ').isEmpty = false := by
        cases hy : n with
        | zero => omega
        | succ m => rfl
      rw [if_pos (by
        rw [hie]
        simp only [List.cons_append]
        simp [hnmall nmh (List.mem_cons_self _ _)])]
      rw [hsplit.1, hsplit.2]

theorem matchOuter_complete (kw w1 kwp nm w2 ps tl : List Char)
    (hkwAll : ∀ c ∈ kw, nameChar c = true) (hkwne : kw ≠ [])
    (hw1 : WsAll w1) (hkwp : KwSpacesOk kw kwp) (hnm : NameOk nm)
    (hw2 : WsAll w2) (hps : ParamsOk ps) :
    matchOuter kw (w1 ++ kwp ++ nm ++ w2 ++ '(' :: (ps ++ ')' :: tl)) =
      some (nm, ps, tl) := by
  have hRhead : ∀ x, (w2 ++ '(' :: (ps ++ ')' :: tl)).head? = some x →
      nameChar x = false := by
    intro x hx
    cases hw2c : w2 with
    | nil =>
      rw [hw2c, List.nil_append] at hx
      have : x = '(' := by simpa using hx.symm
      rw [this]
      decide
    | cons d w2' =>
      rw [hw2c, List.cons_append] at hx
      have : x = d := by simpa using hx.symm
      rw [this]
      exact ws_not_name (hw2 d (hw2c ▸ List.mem_cons_self _ _))
  have hRnospace := dropSpaces_ws_lparen w2 (ps ++ ')' :: tl) hw2
  have hd1 : dropWs (w1 ++ kwp ++ nm ++ w2 ++ '(' :: (ps ++ ')' :: tl)) =
      kwp ++ nm ++ (w2 ++ '(' :: (ps ++ ')' :: tl)) := by
    unfold dropWs
    rw [show w1 ++ kwp ++ nm ++ w2 ++ '(' :: (ps ++ ')' :: tl) =
        w1 ++ (kwp ++ nm ++ (w2 ++ '(' :: (ps ++ ')' :: tl))) from by
      simp [List.append_assoc]]
    rw [dropWhile_ws_append w1 _ hw1]
    apply dropWhile_head_neg
    intro x hx
    rcases hkwp with hkwp | ⟨n, hn, hkwp⟩
    · subst hkwp
      rw [List.nil_append] at hx
      obtain ⟨nmh, nmt, hnmc⟩ : ∃ h t, nm = h :: t := by
        cases nm with
        | nil => exact absurd rfl hnm.1
        | cons h t => exact ⟨h, t, rfl⟩
      rw [hnmc, List.cons_append] at hx
      have : x = nmh := by simpa using hx.symm
      rw [this]
      exact name_not_ws (hnm.2 nmh (hnmc ▸ List.mem_cons_self _ _))
    · subst hkwp
      obtain ⟨kwh, kwt, hkwc⟩ : ∃ h t, kw = h :: t := by
        cases kw with
        | nil => exact absurd rfl hkwne
        | cons h t => exact ⟨h, t, rfl⟩
      rw [hkwc] at hx
      simp only [List.cons_append, List.append_assoc, List.head?_cons] at hx
      have : x = kwh := by simpa using hx.symm
      rw [this]
      exact name_not_ws (hkwAll kwh (hkwc ▸ List.mem_cons_self _ _))
  have hkc := matchKwName_complete kw kwp nm (w2 ++ '(' :: (ps ++ ')' :: tl))
    hkwAll hkwp hnm hRhead hRnospace
  have hd2 : dropWs (w2 ++ '(' :: (ps ++ ')' :: tl)) = '(' :: (ps ++ ')' :: tl) := by
    unfold dropWs
    rw [dropWhile_ws_append w2 _ hw2]
    exact List.dropWhile_cons_of_neg (by decide)
  have hps2 := takeWhile_all_append (p := fun c => decide (c ≠ ')')) ps (')' :: tl)
    (by
      intro c hc
      have hcne : c ≠ ')' := fun hcon => hps.2 (by rw [← hcon]; exact hc)
      simpa using hcne)
    (by
      intro x hx
      have hxe : x = ')' := by simpa using hx.symm
      simp [hxe])
  unfold matchOuter
  rw [hd1, hkc]
  try dsimp only
  rw [hd2]
  split
  · rename_i r1 heq3
    obtain rfl : r1 = ps ++ ')' :: tl := by
      injection heq3 with h1 h2
      exact h2.symm
    rw [hps2.1, if_neg hps.1, hps2.2]
    split
    · rename_i tl0 heq4
      obtain rfl : tl0 = tl := by
        injection heq4 with h1 h2
        exact h2.symm
      rfl
    · rename_i hne
      exact absurd rfl (hne tl)
  · rename_i hne
    exact absurd rfl (hne (ps ++ ')' :: tl))

/-- C7.  `parseEventDeclaration` fails exactly when the input does not match
the shape: optional `event` keyword, a name of characters `[A-Za-z0-9_]+`, a
parenthesized comma-separated parameter list, an optional trailing semicolon
— or when some parameter does not consist of exactly 2 or 3
whitespace-separated tokens, or when a 3-token parameter's middle token is
not `indexed`.  On success, the descriptor's inputs follow declaration order,
each with `type` the parameter's first token, `name` its last token, and
`indexed` true iff it has 3 tokens. -/
theorem c7_parse_event (s : List Char) :
    ((parseEventDeclaration s).isSome ↔ EventDeclOk s)
    ∧ (∀ abi, parseEventDeclaration s = some abi →
        ∃ w1 kw nm w2 ps tl,
          s = w1 ++ kw ++ nm ++ w2 ++ '(' :: (ps ++ ')' :: tl)
          ∧ WsAll w1 ∧ KwSpacesOk ("event".data) kw ∧ NameOk nm ∧ WsAll w2
          ∧ ParamsOk ps ∧ TailSemiOk tl
          ∧ (∀ p ∈ splitComma ps, GoodEventParam p)
          ∧ abi.name = nm
          ∧ abi.inputs = (splitComma ps).map claimEventInput) := by
  have hEvAll : ∀ c ∈ ("event".data : List Char), nameChar c = true := by decide
  have hEvNe : ("event".data : List Char) ≠ [] := by decide
  have sound : ∀ abi, parseEventDeclaration s = some abi →
      ∃ w1 kw nm w2 ps tl,
        s = w1 ++ kw ++ nm ++ w2 ++ '(' :: (ps ++ ')' :: tl)
        ∧ WsAll w1 ∧ KwSpacesOk ("event".data) kw ∧ NameOk nm ∧ WsAll w2
        ∧ ParamsOk ps ∧ TailSemiOk tl
        ∧ (∀ p ∈ splitComma ps, GoodEventParam p)
        ∧ abi.name = nm
        ∧ abi.inputs = (splitComma ps).map claimEventInput := by
    intro abi h
    unfold parseEventDeclaration at h
    cases hmo : matchOuter ("event".data) s with
    | none => rw [hmo] at h; exact absurd h (by simp)
    | some v =>
      obtain ⟨nm, ps, tl⟩ := v
      rw [hmo] at h
      dsimp only at h
      by_cases htl : eventTailOk tl = true
      · rw [if_pos htl] at h
        cases hmp : (splitComma ps).mapM parseEventParam with
        | none => rw [hmp] at h; exact absurd h (by simp)
        | some inputs =>
          rw [hmp] at h
          obtain rfl := Option.some.inj h
          obtain ⟨hall, hinputs⟩ := mapM_eventParams_inv _ _ hmp
          obtain ⟨w1, kwp, w2, hdecomp, hw1, hkw, hnm, hw2, hpsok⟩ :=
            matchOuter_sound ("event".data) s nm ps tl hmo
          exact ⟨w1, kwp, nm, w2, ps, tl, hdecomp, hw1, hkw, hnm, hw2, hpsok,
            (eventTailOk_iff tl).mp htl, hall, rfl, hinputs⟩
      · rw [if_neg htl] at h
        exact absurd h (by simp)
  refine ⟨⟨?_, ?_⟩, sound⟩
  · intro h
    obtain ⟨abi, habi⟩ := Option.isSome_iff_exists.mp h
    obtain ⟨w1, kwp, nm, w2, ps, tl, hdecomp, hw1, hkw, hnm, hw2, hpsok, htl,
      hall, _, _⟩ := sound abi habi
    exact ⟨w1, kwp, nm, w2, ps, tl, hdecomp, hw1, hkw, hnm, hw2, hpsok, htl, hall⟩
  · intro h
    obtain ⟨w1, kwp, nm, w2, ps, tl, hdecomp, hw1, hkw, hnm, hw2, hpsok, htl, hall⟩ := h
    have hmo := matchOuter_complete ("event".data) w1 kwp nm w2 ps tl
      hEvAll hEvNe hw1 hkw hnm hw2 hpsok
    unfold parseEventDeclaration
    rw [hdecomp, hmo]
    dsimp only
    rw [if_pos ((eventTailOk_iff tl).mpr htl), mapM_eventParams_ok _ hall]
    simp

/-- Witness for `c7_parse_event`: the declaration
`event Transfer(address indexed from, uint256 value);` parses successfully
and its descriptor matches the claim's reading of the two parameters. -/
theorem c7_parse_event_witness :
    parseEventDeclaration ("event Transfer(address indexed from, uint256 value);".data) =
      some ⟨"Transfer".data,
        [⟨true, "address".data, "from".data⟩, ⟨false, "uint256".data, "value".data⟩]⟩ := by
  have h := (c7_parse_event
    ("event Transfer(address indexed from, uint256 value);".data)).1.mpr
    ⟨[], "event ".data, "Transfer".data, [],
      "address indexed from, uint256 value".data, [';'], by decide, by decide,
      Or.inr ⟨1, by decide, by decide⟩, by decide, by decide, by decide, by decide,
      by decide⟩
  obtain ⟨abi, habi⟩ := Option.isSome_iff_exists.mp h
  exact habi.trans (congrArg some (Option.some.inj (habi.symm.trans (by decide))))

end Web3Spec
